import Mathlib

set_option maxHeartbeats 1000000
set_option maxRecDepth 100000

/-!
# Verification of the `sie4` streaming SIE4 parser

A shallow embedding of the `sie4` Rust crate: the typed record grammar and
field decoders of `src/item.rs`, the delimiter scanners of `src/parsers.rs`,
and the streaming reader of `src/reader.rs`.

Input bytes are modelled as `List Char` (the SIE4 byte alphabet; the external
CP437 decoder adapter is the identity on this alphabet and is out of scope per
the spec).  nom's four-way streaming result (success, `Incomplete`,
recoverable `Err::Error`, unrecoverable `Err::Failure`) is modelled by `PRes`.
Error payloads (positions, `context` labels) are not modelled: the reader
collapses every hard error to a single `Parse` error and the combinators
branch only on the kind of the result, never on its payload.
-/

namespace Sie4

/-- The input alphabet: a buffered byte span, one `Char` per byte. -/
abbrev Input := List Char

/-- Result of a nom streaming parser: success with the remaining input,
`incomplete` (nom `Err::Incomplete`: more bytes may change the outcome),
`err` (nom `Err::Error`: recoverable, `alt`/`opt` may backtrack) or
`fail` (nom `Err::Failure`, produced by `cut`: not recoverable). -/
inductive PRes (α : Type) where
  | ok (rest : Input) (v : α)
  | incomplete
  | err
  | fail
deriving DecidableEq

/-- A parser over buffered input. -/
def Parser (α : Type) : Type := Input → PRes α

/-- `nom::combinator::success` / plain `Ok((i, v))`. -/
def ppure (v : α) : Parser α := fun i => .ok i v

/-- Sequencing (`?`-threading of `IResult` in the Rust source):
run `p`, then feed its remaining input to `f`. -/
def pbind (p : Parser α) (f : α → Parser β) : Parser β := fun i =>
  match p i with
  | .ok rest v => f v rest
  | .incomplete => .incomplete
  | .err => .err
  | .fail => .fail

/-- `nom::combinator::map`. -/
def pmap (f : α → β) (p : Parser α) : Parser β := fun i =>
  match p i with
  | .ok rest v => .ok rest (f v)
  | .incomplete => .incomplete
  | .err => .err
  | .fail => .fail

/-- Two-way `nom::branch::alt`: try `q` only when `p` returns a recoverable
error; `Incomplete` and `Failure` short-circuit. -/
def alt2 (p q : Parser α) : Parser α := fun i =>
  match p i with
  | .err => q i
  | r => r

/-- `nom::combinator::opt`: absence exactly on a recoverable error, with the
input unconsumed; `Incomplete` and `Failure` are propagated. -/
def popt (p : Parser α) : Parser (Option α) := fun i =>
  match p i with
  | .ok rest v => .ok rest (some v)
  | .incomplete => .incomplete
  | .err => .ok i none
  | .fail => .fail

/-- `nom::combinator::cut`: upgrade a recoverable error to a failure. -/
def pcut (p : Parser α) : Parser α := fun i =>
  match p i with
  | .err => .fail
  | r => r

/-- `nom::combinator::complete`: turn `Incomplete` into a recoverable error
(used on sub-spans that are known to be whole). -/
def pcomplete (p : Parser α) : Parser α := fun i =>
  match p i with
  | .incomplete => .err
  | r => r

/-- Run a detached sub-parse and keep only its value, leaving the main input
untouched (the Rust pattern `let (_, v) = q(s)?` on a sub-span `s`). -/
def ofOut (r : PRes α) : Parser α := fun i =>
  match r with
  | .ok _ v => .ok i v
  | .incomplete => .incomplete
  | .err => .err
  | .fail => .fail

/-- `nom::combinator::map_res`: apply a fallible conversion to the value;
a conversion failure is a recoverable error. -/
def pmapRes (f : α → Option β) (p : Parser α) : Parser β := fun i =>
  match p i with
  | .ok rest v =>
    match f v with
    | some b => .ok rest b
    | none => .err
  | .incomplete => .incomplete
  | .err => .err
  | .fail => .fail

/-- Recursive worker of streaming `tag`: compare the pattern character by
character; a mismatch is definitive, running out of input is `Incomplete`. -/
def tagGo : List Char → Input → PRes Unit
  | [], i => .ok i ()
  | _ :: _, [] => .incomplete
  | c :: t, x :: i => if c = x then tagGo t i else .err

/-- `nom::bytes::streaming::tag` (the matched span is discarded by every call
site in the source, so the value is `Unit`). -/
def tagP (t : List Char) : Parser Unit := fun i => tagGo t i

/-- `nom::character::streaming::char` (value discarded at every call site). -/
def charP (c : Char) : Parser Unit := tagP [c]

/-- Worker of streaming `take_while`: `none` means the predicate held up to
the end of the buffered input (`Incomplete`); otherwise the consumed span and
the rest, whose head falsifies the predicate. -/
def twGo (f : Char → Bool) : Input → Option (Input × Input)
  | [] => none
  | c :: rest =>
    if f c then (twGo f rest).map (fun p => (c :: p.1, p.2))
    else some ([], c :: rest)

/-- `nom::bytes::streaming::take_while`. -/
def takeWhileP (f : Char → Bool) : Parser Input := fun i =>
  match twGo f i with
  | none => .incomplete
  | some (a, r) => .ok r a

/-- `nom::bytes::streaming::take_while1`: additionally requires the first
character to satisfy the predicate (else a recoverable error). -/
def takeWhile1P (f : Char → Bool) : Parser Input := fun i =>
  match i with
  | [] => .incomplete
  | c :: rest =>
    if f c then
      match twGo f rest with
      | none => .incomplete
      | some (a, r) => .ok r (c :: a)
    else .err

/-- `nom::character::streaming::digit1`. -/
def digit1P : Parser Input := takeWhile1P (fun c => c.isDigit)

/-- `nom::combinator::recognize`: return the consumed prefix of the input. -/
def precognize (p : Parser α) : Parser Input := fun i =>
  match p i with
  | .ok rest _ => .ok rest (i.take (i.length - rest.length))
  | .incomplete => .incomplete
  | .err => .err
  | .fail => .fail

/-- Fuelled worker of `nom::multi::many0`: loop the inner parser while it
succeeds, stopping (with the accumulated list) on a recoverable error,
propagating `Incomplete` and `Failure`, and erroring if the inner parser
succeeds without consuming (nom's `ErrorKind::Many0` infinite-loop guard).
One fuel unit is spent per iteration; every call site passes
`input length + 1` fuel, which the no-progress guard makes sufficient, so the
fuel-exhausted branch is unreachable there. -/
def many0F (p : Parser α) : Nat → Input → PRes (List α)
  | 0, _ => .err
  | n + 1, i =>
    match p i with
    | .ok rest v =>
      if rest.length < i.length then
        match many0F p n rest with
        | .ok r vs => .ok r (v :: vs)
        | .incomplete => .incomplete
        | .err => .err
        | .fail => .fail
      else .err
    | .incomplete => .incomplete
    | .err => .ok i []
    | .fail => .fail

/-- `nom::multi::many0`. -/
def many0P (p : Parser α) : Parser (List α) := fun i => many0F p (i.length + 1) i

/-! ## Character classes (src/parsers.rs) -/

/-- Opening curly brace byte (written via its code point throughout). -/
def lbrace : Char := '\x7b'

/-- Closing curly brace byte. -/
def rbrace : Char := '\x7d'

/-- `parsers::is_whitespace`: space or tab. -/
def is_whitespace (c : Char) : Bool := c = ' ' || c = '\t'

/-- `parsers::is_newline` (called `is_line_break` in the revision item.rs
imports): `\n` or `\r`. -/
def is_line_break (c : Char) : Bool := c = '\n' || c = '\r'

/-- Whitespace or line break: the inter-record separator class. -/
def isWsOrLb (c : Char) : Bool := is_whitespace c || is_line_break c

/-! ## Delimiter scanners

`src/parsers.rs` contains the historical str-based, complete-mode
`take_until_unbalanced` (modelled below as `take_until_unbalanced`).  The
byte-span streaming scanner behind `in_curly_braces`, which `src/item.rs`
imports, is not present under src/ and is modelled from the spec. -/

/-- Worker of the historical `parsers::take_until_unbalanced`
(src/parsers.rs:84).  Scans with an escape flag: after a backslash the next
character is skipped unconditionally and never affects the nesting depth.
An unescaped opening bracket increments the depth, an unescaped closing
bracket with depth zero ends the scan (content excludes it, the remainder
starts at it), otherwise it decrements the depth.  `Sum.inl` is an early
return with `(content, remainder)`; `Sum.inr d` means the input ran out with
final depth `d`.  (When the input ends right after an escape byte the Rust
code indexes one past the end of the slice and panics; that unreachable-in-
the-claims case is modelled as running out of input.) -/
def oldScanGo (ob cb : Char) : Bool → Nat → Input → (List Char × Input) ⊕ Nat
  | _, d, [] => .inr d
  | true, d, c :: rest =>
    (oldScanGo ob cb false d rest).map (fun p => (c :: p.1, p.2)) id
  | false, d, c :: rest =>
    if c = '\\' then
      (oldScanGo ob cb true d rest).map (fun p => (c :: p.1, p.2)) id
    else if c = ob then
      (oldScanGo ob cb false (d + 1) rest).map (fun p => (c :: p.1, p.2)) id
    else if c = cb then
      if d = 0 then .inl ([], c :: rest)
      else (oldScanGo ob cb false (d - 1) rest).map (fun p => (c :: p.1, p.2)) id
    else
      (oldScanGo ob cb false d rest).map (fun p => (c :: p.1, p.2)) id

/-- `parsers::take_until_unbalanced` (src/parsers.rs:84-128): complete-mode.
If the unbalanced closing bracket is found, succeed with the content before
it and the remainder starting at it.  If the input ends with depth zero the
whole input is the content; if it ends with non-zero depth the parser fails
with a recoverable `Err::Error` (`ErrorKind::TakeUntil`). -/
def take_until_unbalanced (ob cb : Char) : Parser Input := fun i =>
  match oldScanGo ob cb false 0 i with
  | .inl (content, rest) => .ok rest content
  | .inr 0 => .ok [] i
  | .inr (_ + 1) => .err

/-- Worker of the streaming delimiter scanner.  Modelled from the spec
(§4.2): scan past escape pairs, track nesting depth, return
`some (content, remainder)` when the unbalanced closing bracket is reached
(remainder starts at that bracket, which is not consumed), and `none`
("need more bytes") when the buffered input runs out first. -/
def tuuGo (ob cb : Char) : Bool → Nat → Input → Option (List Char × Input)
  | _, _, [] => none
  | true, d, c :: rest =>
    (tuuGo ob cb false d rest).map (fun p => (c :: p.1, p.2))
  | false, d, c :: rest =>
    if c = '\\' then
      (tuuGo ob cb true d rest).map (fun p => (c :: p.1, p.2))
    else if c = ob then
      (tuuGo ob cb false (d + 1) rest).map (fun p => (c :: p.1, p.2))
    else if c = cb then
      if d = 0 then some ([], c :: rest)
      else (tuuGo ob cb false (d - 1) rest).map (fun p => (c :: p.1, p.2))
    else
      (tuuGo ob cb false d rest).map (fun p => (c :: p.1, p.2))

/-- Modelled from the spec: `parsers::in_curly_braces`, imported by
src/item.rs but absent from src/ (src/parsers.rs holds only the historical
str-based scanner).  Per §4.2 and the grammar it is
`delimited(char('{'), streaming take_until_unbalanced, char('}'))`:
consume the opening brace, scan to the matching unbalanced closing brace,
consume it, and return the content between the braces; signal `Incomplete`
if the buffered bytes run out before the closing brace is found. -/
def closeBrace (content : List Char) : Input → PRes Input
  | [] => .incomplete
  | c2 :: rest2 => if c2 = rbrace then .ok rest2 content else .err

/-- The scanner wrapped in `delimited(char(open), .., char(close))`. -/
def in_curly_braces : Parser Input := fun i =>
  match i with
  | [] => .incomplete
  | c :: rest =>
    if c = lbrace then
      match tuuGo lbrace rbrace false 0 rest with
      | none => .incomplete
      | some (content, rem) => closeBrace content rem
    else .err

/-! ## Text decoders

`parsers::text` and `parsers::unquoted_text` are imported by src/item.rs but
absent from src/; they are modelled from the spec (§4.1 String / §4.1 Date
and the Optional policy). -/

/-- A character that may appear in a bare (unquoted) `String` run: anything
up to the next separator (space, tab, line break), `#`, `{` or `}`
(spec §4.1 String). -/
def isBareChar (c : Char) : Bool :=
  !(is_whitespace c || is_line_break c || c = '#' || c = lbrace || c = rbrace)

/-- A character of an unquoted token (dates, numbers, currency codes): as
`isBareChar`, but a double quote also ends the token, so that a quoted
string is a syntactic-shape mismatch for these decoders (spec §4.1
Optional policy and §8). -/
def isUnquotedChar (c : Char) : Bool := isBareChar c && !(c = '"')

/-- Scanner for the inside of a double-quoted span, one character at a time
with an escape flag.  Modelled from the spec: a backslash-escaped quote is a
literal quote, not a terminator; the escape byte itself is dropped and the
escaped character is kept literally.  An unterminated quote at the end of
the buffered input is `Incomplete`. -/
def quotedGo : Bool → Input → PRes (List Char)
  | _, [] => .incomplete
  | true, c :: rest =>
    match quotedGo false rest with
    | .ok r s => .ok r (c :: s)
    | o => o
  | false, c :: rest =>
    if c = '"' then .ok rest []
    else if c = '\\' then quotedGo true rest
    else
      match quotedGo false rest with
      | .ok r s => .ok r (c :: s)
      | o => o

/-- Modelled from the spec: `parsers::text`, the `String` field decoder
(§4.1 String), imported by src/item.rs but absent from src/.  Either a
double-quoted span (with backslash escapes, see `quotedGo`) or a bare run of
at least one character up to the next separator, `#`, `{` or `}`. -/
def textP : Parser (List Char) := fun i =>
  match i with
  | [] => .incomplete
  | c :: rest =>
    if c = '"' then quotedGo false rest
    else takeWhile1P isBareChar i

/-- Modelled from the spec: `parsers::unquoted_text`, the non-quoted token
used by the date, currency and decimal decoders, imported by src/item.rs but
absent from src/.  A run of at least one non-separator, non-delimiter,
non-quote character. -/
def unquoted_text : Parser Input := takeWhile1P isUnquotedChar

/-! ## Value types and token decoders -/

/-- A calendar date (the `time::Date` values producible by the 8-digit
`DATE_FORMAT`). -/
structure Date where
  year : Nat
  month : Nat
  day : Nat
deriving DecidableEq

/-- Gregorian leap-year rule. -/
def isLeap (y : Nat) : Bool := y % 4 = 0 && (y % 100 ≠ 0 || y % 400 = 0)

/-- Days in a month of the proleptic Gregorian calendar. -/
def daysInMonth (y m : Nat) : Nat :=
  if m = 2 then (if isLeap y then 29 else 28)
  else if m = 4 || m = 6 || m = 9 || m = 11 then 30
  else 31

/-- Numeric value of a digit character. -/
def digitVal (c : Char) : Nat := c.toNat - 48

/-- Numeric value of a digit string. -/
def digitsVal (s : Input) : Nat := s.foldl (fun a c => a * 10 + digitVal c) 0

/-- Modelled from the spec: `parsers::date` applied to a whole token
(src/item.rs:39 `DATE_FORMAT` = `[year][month][day]`, §4.1 Date): exactly 8
digits, year-month-day, and the result must be a real calendar date. -/
def dateOfToken (s : Input) : Option Date :=
  match s with
  | [a, b, c, d, e, f, g, h] =>
    if (s.all fun x => x.isDigit) then
      let y := digitsVal [a, b, c, d]
      let m := digitsVal [e, f]
      let dd := digitsVal [g, h]
      if 1 ≤ m && m ≤ 12 && 1 ≤ dd && dd ≤ daysInMonth y m then
        some ⟨y, m, dd⟩
      else none
    else none
  | _ => none

/-- A decimal amount (`rust_decimal::Decimal` as produced by `FromStr`):
an integer mantissa and a power-of-ten scale. -/
structure Decimal where
  mantissa : Int
  scale : Nat
deriving DecidableEq

/-- Modelled from the spec: the decimal-amount `FromStr` conversion used by
`parsers::from_str` (§4.1 Decimal amount): an optional leading `-`, one or
more digits, optionally a `.` radix point followed by one or more digits;
anything else is malformed.  The whole token must be consumed. -/
def decOfToken (s : Input) : Option Decimal :=
  let core : Input → Option (Nat × Nat) := fun t =>
    match t.span (fun c => c.isDigit) with
    | (intPart, rest) =>
      if intPart = [] then none
      else
        match rest with
        | [] => some (digitsVal intPart, 0)
        | '.' :: fracPart =>
          if fracPart ≠ [] && fracPart.all (fun c => c.isDigit) then
            some (digitsVal intPart * 10 ^ fracPart.length + digitsVal fracPart,
              fracPart.length)
          else none
        | _ => none
  match s with
  | '-' :: t => (core t).map (fun p => ⟨-(p.1 : Int), p.2⟩)
  | t => (core t).map (fun p => ⟨(p.1 : Int), p.2⟩)

/-- An ISO 4217 currency code (`iso_currency::Currency`), identified by its
alphabetic code. -/
structure Currency where
  code : String
deriving DecidableEq

/-- Modelled from the spec: the fixed ISO currency-code table of the
external `iso_currency` crate (§4.1 Currency code); a representative subset
of the alphabetic codes suffices for every claim. -/
def isoCurrencyCodes : List String :=
  ["AUD", "CAD", "CHF", "CNY", "DKK", "EUR", "GBP", "ISK", "JPY", "NOK",
   "SEK", "USD"]

/-- Modelled from the spec: the currency `FromStr` conversion used by
`parsers::from_str`: the whole token must match a code in the fixed table. -/
def curOfToken (s : Input) : Option Currency :=
  if isoCurrencyCodes.contains (String.mk s) then some ⟨String.mk s⟩ else none

/-- `str::parse::<u32>` on a recognized `-?digits` span: rejects a sign,
overflow fails. -/
def u32OfToken (s : Input) : Option Nat :=
  match s with
  | [] => none
  | '-' :: _ => none
  | t =>
    if t.all (fun c => c.isDigit) && digitsVal t < 4294967296 then
      some (digitsVal t)
    else none

/-- `str::parse::<i32>` on a recognized `-?digits` span, with i32 bounds. -/
def i32OfToken (s : Input) : Option Int :=
  match s with
  | [] => none
  | '-' :: t =>
    if t ≠ [] && t.all (fun c => c.isDigit) && digitsVal t ≤ 2147483648 then
      some (-(digitsVal t : Int))
    else none
  | t =>
    if t.all (fun c => c.isDigit) && digitsVal t < 2147483648 then
      some ((digitsVal t : Int))
    else none

/-! ## Field decoders (`ParseField` impls, src/item.rs) -/

/-- `impl ParseField for String` (item.rs:64): `map(text, to_string)`. -/
def stringField : Parser String := pmap String.mk textP

/-- `impl ParseField for bool` (item.rs:73): `alt(tag "0" → false, tag "1" → true)`. -/
def boolField : Parser Bool :=
  alt2 (pmap (fun _ => false) (tagP "0".toList)) (pmap (fun _ => true) (tagP "1".toList))

/-- `impl ParseField for Date` (item.rs:82): take an unquoted token, then run
the date parser on that whole sub-span under `cut` (a recoverable error of
the date parser becomes a hard failure; the sub-span's own remainder is
discarded). -/
def dateField : Parser Date :=
  pbind unquoted_text (fun tok =>
    ofOut (pcut (fun s =>
      match dateOfToken s with
      | some d => .ok [] d
      | none => .err) tok))

/-- `impl ParseField for Currency` (item.rs:93): unquoted token, then
`cut(from_str)` on the whole sub-span. -/
def currencyField : Parser Currency :=
  pbind unquoted_text (fun tok =>
    ofOut (pcut (fun s =>
      match curOfToken s with
      | some c => .ok [] c
      | none => .err) tok))

/-- `impl ParseField for Decimal` (item.rs:104): unquoted token, then
`cut(from_str)` on the whole sub-span. -/
def decimalField : Parser Decimal :=
  pbind unquoted_text (fun tok =>
    ofOut (pcut (fun s =>
      match decOfToken s with
      | some d => .ok [] d
      | none => .err) tok))

/-- The recognized span of `parse_num_impl` (item.rs:167):
`recognize(preceded(opt(tag("-")), cut(digit1)))`. -/
def numRecognize : Parser Input :=
  precognize (pbind (popt (tagP "-".toList)) (fun _ => pcut digit1P))

/-- `impl ParseField for u32` (item.rs:183): recognized span converted via
`map_res` and `str::parse`. -/
def u32Field : Parser Nat := pmapRes u32OfToken numRecognize

/-- `impl ParseField for i32` (item.rs:182). -/
def i32Field : Parser Int := pmapRes i32OfToken numRecognize

/-- `FormatType` (item.rs:277): only `PC8`. -/
inductive FormatType where
  | PC8
deriving DecidableEq

/-- `impl ParseField for FormatType` (item.rs:282). -/
def formatField : Parser FormatType := pmap (fun _ => FormatType.PC8) (tagP "PC8".toList)

/-- `TypeNo` (item.rs:291): only SIE type 4. -/
inductive TypeNo where
  | SIE4
deriving DecidableEq

/-- `impl ParseField for TypeNo` (item.rs:296): `tag "4"`. -/
def typeNoField : Parser TypeNo := pmap (fun _ => TypeNo.SIE4) (tagP "4".toList)

/-- `ChartAccountsType` (item.rs:305). -/
inductive ChartAccountsType where
  | Bas95
  | Bas96
  | EuBas97
  | Ne2007
deriving DecidableEq

/-- `impl ParseField for ChartAccountsType` (item.rs:313); the `context`
wrapper only decorates the error payload and is not modelled. -/
def kptypField : Parser ChartAccountsType :=
  alt2 (pmap (fun _ => ChartAccountsType.Bas95) (tagP "BAS95".toList))
    (alt2 (pmap (fun _ => ChartAccountsType.Bas96) (tagP "BAS96".toList))
      (alt2 (pmap (fun _ => ChartAccountsType.EuBas97) (tagP "EUBAS97".toList))
        (pmap (fun _ => ChartAccountsType.Ne2007) (tagP "NE2007".toList))))

/-- `impl ParseField for List<T>` (item.rs:147): a brace region scanned by
`in_curly_braces`, whose whole content is consumed by
`many0(complete(T::parse_field))`; the inner remainder is discarded. -/
def listOf (pf : Parser α) : Parser (List α) :=
  pbind in_curly_braces (fun o => ofOut (many0P (pcomplete pf) o))

/-- One entry of `SubItems<T>` (item.rs:134): skip to the next `#`, then
`#` + the fixed label, then the item body. -/
def subEntry (label : List Char) (pi : Parser τ) : Parser τ :=
  pbind (takeWhileP (fun c => !(c = '#'))) (fun _ =>
    pbind (charP '#') (fun _ =>
      pbind (tagP label) (fun _ => pi)))

/-- `impl ParseField for SubItems<T>` (item.rs:127): skip separators, scan
the brace region, and parse the fixed-label entries inside it. -/
def subItemsOf (label : List Char) (pi : Parser τ) : Parser (List τ) :=
  pbind (takeWhileP isWsOrLb) (fun _ =>
    pbind in_curly_braces (fun o =>
      ofOut (many0P (pcomplete (subEntry label pi)) o)))

/-- One field step of `item_impl` (item.rs:202-206): skip whitespace, then
decode the field and continue. -/
def fstep (pf : Parser α) (k : α → Parser β) : Parser β :=
  pbind (takeWhileP is_whitespace) (fun _ => pbind pf k)

/-! ## Record kinds (items_impl, src/item.rs:330-414) -/

structure Adress where
  contact : String
  distribution_address : String
  postal_address : String
  phone : String
deriving DecidableEq

structure BKod where
  sni : String
deriving DecidableEq

structure Flagga where
  read : Bool
deriving DecidableEq

structure FNamn where
  name : String
deriving DecidableEq

structure Format where
  format : FormatType
deriving DecidableEq

structure Gen where
  date : Date
  signature : Option String
deriving DecidableEq

structure Ib where
  year : Int
  account : Nat
  balance : Decimal
  quantity : Option String
deriving DecidableEq

structure Konto where
  no : Nat
  name : String
deriving DecidableEq

structure KpTyp where
  typ : ChartAccountsType
deriving DecidableEq

structure Orgnr where
  org_no : String
deriving DecidableEq

structure Program where
  name : String
  version : String
deriving DecidableEq

structure Rar where
  no : Int
  start : Date
  and_end : Date
deriving DecidableEq

structure Res where
  year : Int
  account : Nat
  balance : Decimal
  quantity : Option String
deriving DecidableEq

structure SieTyp where
  no : TypeNo
deriving DecidableEq

structure Trans where
  account : Nat
  objects : List String
  amount : Decimal
  date : Option Date
  text : Option String
  quantity : Option String
  signature : Option String
deriving DecidableEq

structure Ub where
  year : Int
  account : Nat
  balance : Decimal
  quantity : Option String
deriving DecidableEq

structure Valuta where
  currency : Currency
deriving DecidableEq

structure Ver where
  series : String
  no : Nat
  date : Date
  text : Option String
  reg_date : Option Date
  sign : Option String
  transactions : List Trans
deriving DecidableEq

/-- `Group` (item.rs:23-29), ordered by declaration order as Rust's derived
`PartialOrd`/`Ord`. -/
inductive Group where
  | Flag
  | Identification
  | Account
  | Balance
deriving DecidableEq

/-- The derived order on `Group`, via the declaration index. -/
def Group.toNat : Group → Nat
  | .Flag => 0
  | .Identification => 1
  | .Account => 2
  | .Balance => 3

instance : LT Group := ⟨fun a b => a.toNat < b.toNat⟩

instance : LE Group := ⟨fun a b => a.toNat ≤ b.toNat⟩

instance : DecidableRel ((· < ·) : Group → Group → Prop) :=
  fun a b => inferInstanceAs (Decidable (a.toNat < b.toNat))

instance : DecidableRel ((· ≤ ·) : Group → Group → Prop) :=
  fun a b => inferInstanceAs (Decidable (a.toNat ≤ b.toNat))

/-- The record-kind sum type `Item` (items_impl, src/item.rs). -/
inductive Item where
  | Adress (v : Adress)
  | BKod (v : BKod)
  | Flagga (v : Flagga)
  | FNamn (v : FNamn)
  | Format (v : Format)
  | Gen (v : Gen)
  | Ib (v : Ib)
  | Konto (v : Konto)
  | KpTyp (v : KpTyp)
  | Orgnr (v : Orgnr)
  | Program (v : Program)
  | Rar (v : Rar)
  | Res (v : Res)
  | SieTyp (v : SieTyp)
  | Trans (v : Trans)
  | Ub (v : Ub)
  | Valuta (v : Valuta)
  | Ver (v : Ver)
deriving DecidableEq

/-- `Item::group` (item.rs:264): the `GROUP` constant of each record kind. -/
def Item.group : Item → Group
  | .Adress _ => .Identification
  | .BKod _ => .Identification
  | .Flagga _ => .Flag
  | .FNamn _ => .Identification
  | .Format _ => .Identification
  | .Gen _ => .Identification
  | .Ib _ => .Balance
  | .Konto _ => .Account
  | .KpTyp _ => .Identification
  | .Orgnr _ => .Identification
  | .Program _ => .Identification
  | .Rar _ => .Identification
  | .Res _ => .Balance
  | .SieTyp _ => .Identification
  | .Trans _ => .Balance
  | .Ub _ => .Balance
  | .Valuta _ => .Identification
  | .Ver _ => .Balance

/-! ## Record body parsers (`parse_item` of each kind, item.rs:202-211) -/

def adressItem : Parser Adress :=
  fstep stringField (fun contact =>
    fstep stringField (fun distribution_address =>
      fstep stringField (fun postal_address =>
        fstep stringField (fun phone =>
          ppure ⟨contact, distribution_address, postal_address, phone⟩))))

def bkodItem : Parser BKod :=
  fstep stringField (fun sni => ppure ⟨sni⟩)

def flaggaItem : Parser Flagga :=
  fstep boolField (fun read => ppure ⟨read⟩)

def fnamnItem : Parser FNamn :=
  fstep stringField (fun name => ppure ⟨name⟩)

def formatItem : Parser Format :=
  fstep formatField (fun format => ppure ⟨format⟩)

def genItem : Parser Gen :=
  fstep dateField (fun date =>
    fstep (popt stringField) (fun signature => ppure ⟨date, signature⟩))

def ibItem : Parser Ib :=
  fstep i32Field (fun year =>
    fstep u32Field (fun account =>
      fstep decimalField (fun balance =>
        fstep (popt stringField) (fun quantity =>
          ppure ⟨year, account, balance, quantity⟩))))

def kontoItem : Parser Konto :=
  fstep u32Field (fun no =>
    fstep stringField (fun name => ppure ⟨no, name⟩))

def kptypItem : Parser KpTyp :=
  fstep kptypField (fun typ => ppure ⟨typ⟩)

def orgnrItem : Parser Orgnr :=
  fstep stringField (fun org_no => ppure ⟨org_no⟩)

def programItem : Parser Program :=
  fstep stringField (fun name =>
    fstep stringField (fun version => ppure ⟨name, version⟩))

def rarItem : Parser Rar :=
  fstep i32Field (fun no =>
    fstep dateField (fun start =>
      fstep dateField (fun and_end => ppure ⟨no, start, and_end⟩)))

def resItem : Parser Res :=
  fstep i32Field (fun year =>
    fstep u32Field (fun account =>
      fstep decimalField (fun balance =>
        fstep (popt stringField) (fun quantity =>
          ppure ⟨year, account, balance, quantity⟩))))

def sieTypItem : Parser SieTyp :=
  fstep typeNoField (fun no => ppure ⟨no⟩)

def transItem : Parser Trans :=
  fstep u32Field (fun account =>
    fstep (listOf stringField) (fun objects =>
      fstep decimalField (fun amount =>
        fstep (popt dateField) (fun date =>
          fstep (popt stringField) (fun text =>
            fstep (popt stringField) (fun quantity =>
              fstep (popt stringField) (fun signature =>
                ppure ⟨account, objects, amount, date, text, quantity, signature⟩)))))))

def ubItem : Parser Ub :=
  fstep i32Field (fun year =>
    fstep u32Field (fun account =>
      fstep decimalField (fun balance =>
        fstep (popt stringField) (fun quantity =>
          ppure ⟨year, account, balance, quantity⟩))))

def valutaItem : Parser Valuta :=
  fstep currencyField (fun currency => ppure ⟨currency⟩)

def verItem : Parser Ver :=
  fstep stringField (fun series =>
    fstep u32Field (fun no =>
      fstep dateField (fun date =>
        fstep (popt stringField) (fun text =>
          fstep (popt dateField) (fun reg_date =>
            fstep (popt stringField) (fun sign =>
              fstep (subItemsOf "TRANS".toList transItem) (fun transactions =>
                ppure ⟨series, no, date, text, reg_date, sign, transactions⟩)))))))

/-- One branch of `Item::parse`'s `alt`: the label tag, then the body. -/
def branch (label : List Char) (pi : Parser τ) (mk : τ → Item) : Parser Item :=
  pbind (tagP label) (fun _ => pmap mk pi)

/-- The `alt` over every record kind, in the declaration order of
`items_impl` (src/item.rs:330-414). -/
def itemBody : Parser Item :=
  alt2 (branch "ADRESS".toList adressItem Item.Adress)
    (alt2 (branch "BKOD".toList bkodItem Item.BKod)
      (alt2 (branch "FLAGGA".toList flaggaItem Item.Flagga)
        (alt2 (branch "FNAMN".toList fnamnItem Item.FNamn)
          (alt2 (branch "FORMAT".toList formatItem Item.Format)
            (alt2 (branch "GEN".toList genItem Item.Gen)
              (alt2 (branch "IB".toList ibItem Item.Ib)
                (alt2 (branch "KONTO".toList kontoItem Item.Konto)
                  (alt2 (branch "KPTYP".toList kptypItem Item.KpTyp)
                    (alt2 (branch "ORGNR".toList orgnrItem Item.Orgnr)
                      (alt2 (branch "PROGRAM".toList programItem Item.Program)
                        (alt2 (branch "RAR".toList rarItem Item.Rar)
                          (alt2 (branch "RES".toList resItem Item.Res)
                            (alt2 (branch "SIETYP".toList sieTypItem Item.SieTyp)
                              (alt2 (branch "TRANS".toList transItem Item.Trans)
                                (alt2 (branch "UB".toList ubItem Item.Ub)
                                  (alt2 (branch "VALUTA".toList valutaItem Item.Valuta)
                                    (branch "VER".toList verItem Item.Ver)))))))))))))))))

/-- `Item::parse` (src/item.rs:250-261): skip leading whitespace and line
breaks, expect `#`, and dispatch on the record tag. -/
def Item.parse : Parser Item :=
  pbind (takeWhileP isWsOrLb) (fun _ => pbind (tagP "#".toList) (fun _ => itemBody))

/-! ## The streaming reader (src/reader.rs) -/

/-- `reader::Error`, minus the `Io` variant: the byte source is modelled as a
pure list of successful reads, so `fill_buf` never fails. -/
inductive RError where
  | parse
  | outOfOrder
deriving DecidableEq

/-- One yielded element of the reader's iterator (`Result<Item, Error>`). -/
inductive ROut where
  | ok (it : Item)
  | err (e : RError)
deriving DecidableEq

/-- The reader's state: the buffered unconsumed bytes, the pending reads of
the underlying byte source (each the non-empty result of one successful
`read`; an empty read means the source is exhausted), and the `Group`
watermark. -/
structure RState where
  buffer : Input
  chunks : List Input
  group : Group
deriving DecidableEq

/-- The loop body of `<Reader as Iterator>::next` (src/reader.rs:41-67):
parse the buffered bytes; on success consume them and check the watermark
(`OutOfOrder` is returned after consuming, without updating the watermark);
on `Incomplete` refill from the source and retry, returning `None` when a
refill adds no bytes; on a hard error return `Error::Parse` without
consuming. -/
def nextGo (g : Group) : Input → List Input → Option (ROut × RState)
  | buf, chunks =>
    match Item.parse buf with
    | .ok rest it =>
      if it.group < g then some (.err .outOfOrder, ⟨rest, chunks, g⟩)
      else some (.ok it, ⟨rest, chunks, it.group⟩)
    | .err => some (.err .parse, ⟨buf, chunks, g⟩)
    | .fail => some (.err .parse, ⟨buf, chunks, g⟩)
    | .incomplete =>
      match chunks with
      | [] => none
      | c :: cs => if c.isEmpty then none else nextGo g (buf ++ c) cs

/-- `<Reader as Iterator>::next`. -/
def readerNext (s : RState) : Option (ROut × RState) := nextGo s.group s.buffer s.chunks

/-- `Reader::new` (src/reader.rs:18-23): empty buffer, watermark at
`Group::Flag` (the minimum). -/
def initState (chunks : List Input) : RState := ⟨[], chunks, .Flag⟩

/-- Pull up to `n` items from the reader (the iterator's finite prefixes:
"every pull sequence"). -/
def pulls : Nat → RState → List ROut
  | 0, _ => []
  | n + 1, s =>
    match readerNext s with
    | none => []
    | some (o, s') => o :: pulls n s'

/-- The `Group`s of the successfully decoded items of an output sequence. -/
def successGroups (l : List ROut) : List Group :=
  l.filterMap (fun o =>
    match o with
    | .ok it => some it.group
    | .err _ => none)

/-! ## Monotonicity: streaming parse results are stable under buffer growth

A nom streaming parser is *monotone* when growing the buffered input cannot
change a definite result: a success still succeeds with the same value and
the same consumed prefix, and a recoverable error / failure stays exactly
that.  (`Incomplete` is the one result more input may change — that is its
meaning.)  This is the key property behind refill-and-retry correctness. -/

/-- Monotonicity of a streaming parser under growing the buffered input. -/
structure Mono (p : Parser α) : Prop where
  okE : ∀ b rest v, p b = .ok rest v →
    (∃ pre, b = pre ++ rest) ∧ ∀ e, p (b ++ e) = .ok (rest ++ e) v
  errE : ∀ b, p b = .err → ∀ e, p (b ++ e) = .err
  failE : ∀ b, p b = .fail → ∀ e, p (b ++ e) = .fail

theorem mono_ppure (v : α) : Mono (ppure v) := by
  refine ⟨?_, ?_, ?_⟩
  · intro b rest w h
    obtain ⟨rfl, rfl⟩ : b = rest ∧ v = w := by simpa [ppure] using h
    exact ⟨⟨[], rfl⟩, fun e => rfl⟩
  · intro b h; simp [ppure] at h
  · intro b h; simp [ppure] at h

theorem mono_pbind {p : Parser α} {f : α → Parser β} (hp : Mono p)
    (hf : ∀ v, Mono (f v)) : Mono (pbind p f) := by
  refine ⟨?_, ?_, ?_⟩
  · intro b rest w h
    cases hb : p b with
    | ok r1 v1 =>
      simp only [pbind, hb] at h
      obtain ⟨⟨pre1, hb1⟩, hext1⟩ := hp.okE _ _ _ hb
      obtain ⟨⟨pre2, hr⟩, hext2⟩ := (hf v1).okE _ _ _ h
      exact ⟨⟨pre1 ++ pre2, by rw [hb1, hr, List.append_assoc]⟩,
        fun e => by simp only [pbind, hext1 e]; exact hext2 e⟩
    | incomplete => simp only [pbind, hb] at h; cases h
    | err => simp only [pbind, hb] at h; cases h
    | fail => simp only [pbind, hb] at h; cases h
  · intro b h
    cases hb : p b with
    | ok r1 v1 =>
      simp only [pbind, hb] at h
      intro e
      simp only [pbind, (hp.okE _ _ _ hb).2 e]
      exact (hf v1).errE _ h e
    | incomplete => simp only [pbind, hb] at h; cases h
    | err =>
      intro e
      simp only [pbind, hp.errE _ hb e]
    | fail => simp only [pbind, hb] at h; cases h
  · intro b h
    cases hb : p b with
    | ok r1 v1 =>
      simp only [pbind, hb] at h
      intro e
      simp only [pbind, (hp.okE _ _ _ hb).2 e]
      exact (hf v1).failE _ h e
    | incomplete => simp only [pbind, hb] at h; cases h
    | err => simp only [pbind, hb] at h; cases h
    | fail =>
      intro e
      simp only [pbind, hp.failE _ hb e]

theorem pmap_eq_pbind (f : α → β) (p : Parser α) :
    pmap f p = pbind p (fun v => ppure (f v)) := by
  funext i
  cases h : p i <;> simp [pmap, pbind, ppure, h]

theorem mono_pmap {p : Parser α} (f : α → β) (hp : Mono p) : Mono (pmap f p) := by
  rw [pmap_eq_pbind]
  exact mono_pbind hp (fun v => mono_ppure _)

theorem mono_alt2 {p q : Parser α} (hp : Mono p) (hq : Mono q) : Mono (alt2 p q) := by
  refine ⟨?_, ?_, ?_⟩
  · intro b rest v h
    cases hb : p b with
    | ok r1 v1 =>
      simp only [alt2, hb] at h
      injection h with h1 h2
      subst h1
      subst h2
      obtain ⟨hpre, hext⟩ := hp.okE _ _ _ hb
      exact ⟨hpre, fun e => by simp only [alt2, hext e]⟩
    | incomplete => simp only [alt2, hb] at h; cases h
    | err =>
      simp only [alt2, hb] at h
      obtain ⟨hpre, hext⟩ := hq.okE _ _ _ h
      exact ⟨hpre, fun e => by simp only [alt2, hp.errE _ hb e]; exact hext e⟩
    | fail => simp only [alt2, hb] at h; cases h
  · intro b h
    cases hb : p b with
    | ok r1 v1 => simp only [alt2, hb] at h; cases h
    | incomplete => simp only [alt2, hb] at h; cases h
    | err =>
      simp only [alt2, hb] at h
      intro e
      simp only [alt2, hp.errE _ hb e]
      exact hq.errE _ h e
    | fail => simp only [alt2, hb] at h; cases h
  · intro b h
    cases hb : p b with
    | ok r1 v1 => simp only [alt2, hb] at h; cases h
    | incomplete => simp only [alt2, hb] at h; cases h
    | err =>
      simp only [alt2, hb] at h
      intro e
      simp only [alt2, hp.errE _ hb e]
      exact hq.failE _ h e
    | fail =>
      intro e
      simp only [alt2, hp.failE _ hb e]

theorem mono_popt {p : Parser α} (hp : Mono p) : Mono (popt p) := by
  refine ⟨?_, ?_, ?_⟩
  · intro b rest v h
    cases hb : p b with
    | ok r1 v1 =>
      simp only [popt, hb] at h
      injection h with h1 h2
      subst h1
      subst h2
      obtain ⟨hpre, hext⟩ := hp.okE _ _ _ hb
      exact ⟨hpre, fun e => by simp only [popt, hext e]⟩
    | incomplete => simp only [popt, hb] at h; cases h
    | err =>
      simp only [popt, hb] at h
      injection h with h1 h2
      subst h1
      subst h2
      exact ⟨⟨[], rfl⟩, fun e => by simp only [popt, hp.errE _ hb e]⟩
    | fail => simp only [popt, hb] at h; cases h
  · intro b h
    cases hb : p b <;> simp only [popt, hb] at h <;> cases h
  · intro b h
    cases hb : p b with
    | ok r1 v1 => simp only [popt, hb] at h; cases h
    | incomplete => simp only [popt, hb] at h; cases h
    | err => simp only [popt, hb] at h; cases h
    | fail =>
      intro e
      simp only [popt, hp.failE _ hb e]

theorem mono_pcut {p : Parser α} (hp : Mono p) : Mono (pcut p) := by
  refine ⟨?_, ?_, ?_⟩
  · intro b rest v h
    cases hb : p b with
    | ok r1 v1 =>
      simp only [pcut, hb] at h
      injection h with h1 h2
      subst h1
      subst h2
      obtain ⟨hpre, hext⟩ := hp.okE _ _ _ hb
      exact ⟨hpre, fun e => by simp only [pcut, hext e]⟩
    | incomplete => simp only [pcut, hb] at h; cases h
    | err => simp only [pcut, hb] at h; cases h
    | fail => simp only [pcut, hb] at h; cases h
  · intro b h
    cases hb : p b <;> simp only [pcut, hb] at h <;> cases h
  · intro b h
    cases hb : p b with
    | ok r1 v1 => simp only [pcut, hb] at h; cases h
    | incomplete => simp only [pcut, hb] at h; cases h
    | err =>
      intro e
      simp only [pcut, hp.errE _ hb e]
    | fail =>
      intro e
      simp only [pcut, hp.failE _ hb e]

theorem mono_ofOut (r : PRes α) : Mono (ofOut r) := by
  refine ⟨?_, ?_, ?_⟩
  · intro b rest v h
    cases r with
    | ok r0 v0 =>
      simp only [ofOut] at h
      injection h with h1 h2
      subst h1
      subst h2
      exact ⟨⟨[], rfl⟩, fun e => rfl⟩
    | incomplete => cases h
    | err => cases h
    | fail => cases h
  · intro b h
    cases r with
    | ok r0 v0 => cases h
    | incomplete => cases h
    | err => intro e; rfl
    | fail => cases h
  · intro b h
    cases r with
    | ok r0 v0 => cases h
    | incomplete => cases h
    | err => cases h
    | fail => intro e; rfl

theorem mono_pmapRes {p : Parser α} (f : α → Option β) (hp : Mono p) :
    Mono (pmapRes f p) := by
  refine ⟨?_, ?_, ?_⟩
  · intro b rest v h
    cases hb : p b with
    | ok r1 v1 =>
      simp only [pmapRes, hb] at h
      obtain ⟨hpre, hext⟩ := hp.okE _ _ _ hb
      cases hf : f v1 with
      | some w =>
        simp only [hf] at h
        injection h with h1 h2
        subst h1
        subst h2
        exact ⟨hpre, fun e => by simp only [pmapRes, hext e, hf]⟩
      | none => simp only [hf] at h; cases h
    | incomplete => simp only [pmapRes, hb] at h; cases h
    | err => simp only [pmapRes, hb] at h; cases h
    | fail => simp only [pmapRes, hb] at h; cases h
  · intro b h
    cases hb : p b with
    | ok r1 v1 =>
      simp only [pmapRes, hb] at h
      obtain ⟨hpre, hext⟩ := hp.okE _ _ _ hb
      cases hf : f v1 with
      | some w => simp only [hf] at h; cases h
      | none =>
        intro e
        simp only [pmapRes, hext e, hf]
    | incomplete => simp only [pmapRes, hb] at h; cases h
    | err =>
      intro e
      simp only [pmapRes, hp.errE _ hb e]
    | fail => simp only [pmapRes, hb] at h; cases h
  · intro b h
    cases hb : p b with
    | ok r1 v1 =>
      simp only [pmapRes, hb] at h
      cases hf : f v1 with
      | some w => simp only [hf] at h; cases h
      | none => simp only [hf] at h; cases h
    | incomplete => simp only [pmapRes, hb] at h; cases h
    | err => simp only [pmapRes, hb] at h; cases h
    | fail =>
      intro e
      simp only [pmapRes, hp.failE _ hb e]

/-- Taking no more than the first list: `take` ignores the extension. -/
theorem take_append_of_le (n : Nat) (l e : List Char) (h : n ≤ l.length) :
    (l ++ e).take n = l.take n := by
  induction l generalizing n with
  | nil =>
    have hn : n = 0 := Nat.le_zero.mp (by simpa using h)
    subst hn
    simp
  | cons c t ih =>
    cases n with
    | zero => simp
    | succ m => simpa using ih m (by simpa using h)

theorem mono_precognize {p : Parser α} (hp : Mono p) : Mono (precognize p) := by
  refine ⟨?_, ?_, ?_⟩
  · intro b rest v h
    cases hb : p b with
    | ok r1 v1 =>
      simp only [precognize, hb] at h
      obtain ⟨⟨pre, hpre⟩, hext⟩ := hp.okE _ _ _ hb
      injection h with h1 h2
      subst h1
      subst h2
      refine ⟨⟨pre, hpre⟩, ?_⟩
      intro e
      simp only [precognize, hext e]
      have hlen : r1.length ≤ b.length := by rw [hpre]; simp
      have heq1 : (b ++ e).length - (r1 ++ e).length = b.length - r1.length := by
        simp only [List.length_append]
        omega
      rw [heq1, take_append_of_le _ _ _ (by omega)]
    | incomplete => simp only [precognize, hb] at h; cases h
    | err => simp only [precognize, hb] at h; cases h
    | fail => simp only [precognize, hb] at h; cases h
  · intro b h
    cases hb : p b with
    | ok r1 v1 => simp only [precognize, hb] at h; cases h
    | incomplete => simp only [precognize, hb] at h; cases h
    | err =>
      intro e
      simp only [precognize, hp.errE _ hb e]
    | fail => simp only [precognize, hb] at h; cases h
  · intro b h
    cases hb : p b with
    | ok r1 v1 => simp only [precognize, hb] at h; cases h
    | incomplete => simp only [precognize, hb] at h; cases h
    | err => simp only [precognize, hb] at h; cases h
    | fail =>
      intro e
      simp only [precognize, hp.failE _ hb e]

/-! ## Monotonicity of the base streaming parsers -/

theorem tagGo_okE : ∀ (t : List Char) (b rest : Input) (v : Unit),
    tagGo t b = .ok rest v →
    (∃ pre, b = pre ++ rest) ∧ ∀ e, tagGo t (b ++ e) = .ok (rest ++ e) v := by
  intro t
  induction t with
  | nil =>
    intro b rest v h
    simp only [tagGo] at h
    injection h with h1 h2
    subst h1
    exact ⟨⟨[], rfl⟩, fun e => rfl⟩
  | cons c t ih =>
    intro b rest v h
    cases b with
    | nil => simp only [tagGo] at h; cases h
    | cons x b' =>
      simp only [tagGo] at h
      by_cases hc : c = x
      · rw [if_pos hc] at h
        obtain ⟨⟨pre, hpre⟩, hext⟩ := ih b' rest v h
        exact ⟨⟨x :: pre, by rw [hpre]; rfl⟩, fun e => by
          simpa [tagGo, hc] using hext e⟩
      · rw [if_neg hc] at h; cases h

theorem tagGo_errE : ∀ (t : List Char) (b : Input),
    tagGo t b = .err → ∀ e, tagGo t (b ++ e) = .err := by
  intro t
  induction t with
  | nil => intro b h; simp only [tagGo] at h; cases h
  | cons c t ih =>
    intro b h
    cases b with
    | nil => simp only [tagGo] at h; cases h
    | cons x b' =>
      simp only [tagGo] at h
      by_cases hc : c = x
      · rw [if_pos hc] at h
        intro e
        simpa [tagGo, hc] using ih b' h e
      · intro e
        simp [tagGo, hc]

theorem tagGo_ne_fail : ∀ (t : List Char) (b : Input), tagGo t b ≠ .fail := by
  intro t
  induction t with
  | nil => intro b h; cases h
  | cons c t ih =>
    intro b h
    cases b with
    | nil => cases h
    | cons x b' =>
      simp only [tagGo] at h
      by_cases hc : c = x
      · rw [if_pos hc] at h
        exact ih b' h
      · rw [if_neg hc] at h; cases h

theorem mono_tagP (t : List Char) : Mono (tagP t) := by
  refine ⟨?_, ?_, ?_⟩
  · intro b rest v h
    exact tagGo_okE t b rest v h
  · intro b h e
    exact tagGo_errE t b h e
  · intro b h
    exact absurd h (tagGo_ne_fail t b)

theorem mono_charP (c : Char) : Mono (charP c) := mono_tagP [c]

theorem twGo_some : ∀ (f : Char → Bool) (b a r : Input),
    twGo f b = some (a, r) →
    b = a ++ r ∧ ∀ e, twGo f (b ++ e) = some (a, r ++ e) := by
  intro f b
  induction b with
  | nil => intro a r h; simp [twGo] at h
  | cons c rest ih =>
    intro a r h
    simp only [twGo] at h
    by_cases hc : f c
    · rw [if_pos hc] at h
      cases hrec : twGo f rest with
      | none => rw [hrec] at h; cases h
      | some p =>
        obtain ⟨a1, r1⟩ := p
        rw [hrec] at h
        simp only [Option.map_some'] at h
        injection h with hmk
        rw [Prod.mk.injEq] at hmk
        obtain ⟨rfl, rfl⟩ := hmk
        obtain ⟨hsp, hext⟩ := ih a1 r1 hrec
        exact ⟨by rw [hsp]; rfl, fun e => by simp [twGo, hc, hext e]⟩
    · rw [if_neg hc] at h
      injection h with hmk
      rw [Prod.mk.injEq] at hmk
      obtain ⟨rfl, rfl⟩ := hmk
      exact ⟨rfl, fun e => by simp [twGo, hc]⟩

theorem mono_takeWhileP (f : Char → Bool) : Mono (takeWhileP f) := by
  refine ⟨?_, ?_, ?_⟩
  · intro b rest v h
    cases htw : twGo f b with
    | none => simp only [takeWhileP, htw] at h; cases h
    | some p =>
      obtain ⟨a, r⟩ := p
      simp only [takeWhileP, htw] at h
      injection h with h1 h2
      subst h1
      subst h2
      obtain ⟨hsp, hext⟩ := twGo_some f b _ _ htw
      exact ⟨⟨a, hsp⟩, fun e => by simp [takeWhileP, hext e]⟩
  · intro b h
    cases htw : twGo f b with
    | none => simp only [takeWhileP, htw] at h; cases h
    | some p =>
      obtain ⟨a, r⟩ := p
      simp only [takeWhileP, htw] at h; cases h
  · intro b h
    cases htw : twGo f b with
    | none => simp only [takeWhileP, htw] at h; cases h
    | some p =>
      obtain ⟨a, r⟩ := p
      simp only [takeWhileP, htw] at h; cases h

theorem mono_takeWhile1P (f : Char → Bool) : Mono (takeWhile1P f) := by
  refine ⟨?_, ?_, ?_⟩
  · intro b rest v h
    cases b with
    | nil => simp only [takeWhile1P] at h; cases h
    | cons c b' =>
      simp only [takeWhile1P] at h
      by_cases hc : f c
      · rw [if_pos hc] at h
        cases htw : twGo f b' with
        | none => rw [htw] at h; cases h
        | some p =>
          obtain ⟨a, r⟩ := p
          rw [htw] at h
          injection h with h1 h2
          subst h1
          subst h2
          obtain ⟨hsp, hext⟩ := twGo_some f b' _ _ htw
          exact ⟨⟨c :: a, by rw [hsp]; rfl⟩,
            fun e => by simp [takeWhile1P, hc, hext e]⟩
      · rw [if_neg hc] at h; cases h
  · intro b h
    cases b with
    | nil => simp only [takeWhile1P] at h; cases h
    | cons c b' =>
      simp only [takeWhile1P] at h
      by_cases hc : f c
      · rw [if_pos hc] at h
        cases htw : twGo f b' with
        | none => rw [htw] at h; cases h
        | some p =>
          obtain ⟨a, r⟩ := p
          rw [htw] at h; cases h
      · intro e
        simp [takeWhile1P, hc]
  · intro b h
    cases b with
    | nil => simp only [takeWhile1P] at h; cases h
    | cons c b' =>
      simp only [takeWhile1P] at h
      by_cases hc : f c
      · rw [if_pos hc] at h
        cases htw : twGo f b' with
        | none => rw [htw] at h; cases h
        | some p =>
          obtain ⟨a, r⟩ := p
          rw [htw] at h; cases h
      · rw [if_neg hc] at h; cases h

theorem quotedGo_okE : ∀ (b : Input) (esc : Bool) (rest : Input) (v : List Char),
    quotedGo esc b = .ok rest v →
    (∃ pre, b = pre ++ rest) ∧ ∀ e, quotedGo esc (b ++ e) = .ok (rest ++ e) v := by
  intro b
  induction b with
  | nil => intro esc rest v h; cases esc <;> simp only [quotedGo] at h <;> cases h
  | cons c b' ih =>
    intro esc rest v h
    cases esc with
    | true =>
      simp only [quotedGo] at h
      cases hq : quotedGo false b' with
      | ok r s =>
        rw [hq] at h
        injection h with h1 h2
        subst h1
        subst h2
        obtain ⟨⟨pre, hpre⟩, hext⟩ := ih false _ _ hq
        exact ⟨⟨c :: pre, by rw [hpre]; rfl⟩,
          fun e => by simp only [List.cons_append, quotedGo, List.append_eq, hext e]⟩
      | incomplete => rw [hq] at h; cases h
      | err => rw [hq] at h; cases h
      | fail => rw [hq] at h; cases h
    | false =>
      simp only [quotedGo] at h
      by_cases hc : c = '"'
      · subst hc
        rw [if_pos rfl] at h
        injection h with h1 h2
        subst h1
        subst h2
        exact ⟨⟨['"'], rfl⟩, fun e => by simp [quotedGo]⟩
      · rw [if_neg hc] at h
        by_cases hb : c = '\\'
        · subst hb
          rw [if_pos rfl] at h
          obtain ⟨⟨pre, hpre⟩, hext⟩ := ih true _ _ h
          refine ⟨⟨'\\' :: pre, by rw [hpre]; rfl⟩, ?_⟩
          intro e
          simp only [List.cons_append, quotedGo, List.append_eq, if_neg hc,
            if_pos rfl]
          simpa using hext e
        · rw [if_neg hb] at h
          cases hq : quotedGo false b' with
          | ok r s =>
            rw [hq] at h
            injection h with h1 h2
            subst h1
            subst h2
            obtain ⟨⟨pre, hpre⟩, hext⟩ := ih false _ _ hq
            refine ⟨⟨c :: pre, by rw [hpre]; rfl⟩, ?_⟩
            intro e
            simp only [List.cons_append, quotedGo, List.append_eq, if_neg hc,
              if_neg hb, hext e]
          | incomplete => rw [hq] at h; cases h
          | err => rw [hq] at h; cases h
          | fail => rw [hq] at h; cases h

theorem quotedGo_ne_err_fail : ∀ (b : Input) (esc : Bool),
    quotedGo esc b ≠ .err ∧ quotedGo esc b ≠ .fail := by
  intro b
  induction b with
  | nil =>
    intro esc
    constructor <;> intro h <;> cases esc <;> simp only [quotedGo] at h <;> cases h
  | cons c b' ih =>
    intro esc
    cases esc with
    | true =>
      constructor <;> intro h <;> simp only [quotedGo] at h
      · cases hq : quotedGo false b' with
        | ok r s => rw [hq] at h; cases h
        | incomplete => rw [hq] at h; cases h
        | err => exact (ih false).1 hq
        | fail => rw [hq] at h; cases h
      · cases hq : quotedGo false b' with
        | ok r s => rw [hq] at h; cases h
        | incomplete => rw [hq] at h; cases h
        | err => rw [hq] at h; cases h
        | fail => exact (ih false).2 hq
    | false =>
      constructor <;> intro h <;> simp only [quotedGo] at h
      · by_cases hc : c = '"'
        · rw [if_pos hc] at h; cases h
        · rw [if_neg hc] at h
          by_cases hb : c = '\\'
          · rw [if_pos hb] at h
            exact (ih true).1 h
          · rw [if_neg hb] at h
            cases hq : quotedGo false b' with
            | ok r s => rw [hq] at h; cases h
            | incomplete => rw [hq] at h; cases h
            | err => exact (ih false).1 hq
            | fail => rw [hq] at h; cases h
      · by_cases hc : c = '"'
        · rw [if_pos hc] at h; cases h
        · rw [if_neg hc] at h
          by_cases hb : c = '\\'
          · rw [if_pos hb] at h
            exact (ih true).2 h
          · rw [if_neg hb] at h
            cases hq : quotedGo false b' with
            | ok r s => rw [hq] at h; cases h
            | incomplete => rw [hq] at h; cases h
            | err => rw [hq] at h; cases h
            | fail => exact (ih false).2 hq

theorem mono_textP : Mono textP := by
  refine ⟨?_, ?_, ?_⟩
  · intro b rest v h
    cases b with
    | nil => simp only [textP] at h; cases h
    | cons c b' =>
      simp only [textP] at h
      by_cases hc : c = '"'
      · rw [if_pos hc] at h
        obtain ⟨⟨pre, hpre⟩, hext⟩ := quotedGo_okE b' false rest v h
        refine ⟨⟨c :: pre, by rw [hpre]; rfl⟩, ?_⟩
        intro e
        simp only [List.cons_append, textP, if_pos hc]
        exact hext e
      · rw [if_neg hc] at h
        obtain ⟨hpre, hext⟩ := (mono_takeWhile1P isBareChar).okE _ _ _ h
        refine ⟨hpre, ?_⟩
        intro e
        have h5 := hext e
        simp only [List.cons_append] at h5 ⊢
        rw [textP, if_neg hc]
        exact h5
  · intro b h
    cases b with
    | nil => simp only [textP] at h; cases h
    | cons c b' =>
      simp only [textP] at h
      by_cases hc : c = '"'
      · rw [if_pos hc] at h
        exact absurd h (quotedGo_ne_err_fail b' false).1
      · rw [if_neg hc] at h
        intro e
        have h5 := (mono_takeWhile1P isBareChar).errE _ h e
        simp only [List.cons_append] at h5 ⊢
        rw [textP, if_neg hc]
        exact h5
  · intro b h
    cases b with
    | nil => simp only [textP] at h; cases h
    | cons c b' =>
      simp only [textP] at h
      by_cases hc : c = '"'
      · rw [if_pos hc] at h
        exact absurd h (quotedGo_ne_err_fail b' false).2
      · rw [if_neg hc] at h
        intro e
        have h5 := (mono_takeWhile1P isBareChar).failE _ h e
        simp only [List.cons_append] at h5 ⊢
        rw [textP, if_neg hc]
        exact h5

theorem mono_unquoted : Mono unquoted_text := mono_takeWhile1P isUnquotedChar

theorem tuuGo_some : ∀ (b : Input) (esc : Bool) (d : Nat) (a r : Input),
    tuuGo lbrace rbrace esc d b = some (a, r) →
    b = a ++ r ∧ ∀ e, tuuGo lbrace rbrace esc d (b ++ e) = some (a, r ++ e) := by
  intro b
  induction b with
  | nil => intro esc d a r h; cases esc <;> simp only [tuuGo] at h <;> cases h
  | cons c b' ih =>
    intro esc d a r h
    cases esc with
    | true =>
      simp only [tuuGo] at h
      cases hrec : tuuGo lbrace rbrace false d b' with
      | none => rw [hrec] at h; cases h
      | some p =>
        obtain ⟨a1, r1⟩ := p
        rw [hrec] at h
        simp only [Option.map_some'] at h
        injection h with hmk
        rw [Prod.mk.injEq] at hmk
        obtain ⟨rfl, rfl⟩ := hmk
        obtain ⟨hsp, hext⟩ := ih false d a1 r1 hrec
        exact ⟨by rw [hsp]; rfl, fun e => by
          simp only [List.cons_append, tuuGo, List.append_eq, hext e, Option.map_some']⟩
    | false =>
      simp only [tuuGo] at h
      by_cases h1 : c = '\\'
      · rw [if_pos h1] at h
        cases hrec : tuuGo lbrace rbrace true d b' with
        | none => rw [hrec] at h; cases h
        | some p =>
          obtain ⟨a1, r1⟩ := p
          rw [hrec] at h
          simp only [Option.map_some'] at h
          injection h with hmk
          rw [Prod.mk.injEq] at hmk
          obtain ⟨rfl, rfl⟩ := hmk
          obtain ⟨hsp, hext⟩ := ih true d a1 r1 hrec
          exact ⟨by rw [hsp]; rfl, fun e => by
            simp only [List.cons_append, tuuGo, List.append_eq, if_pos h1, hext e,
              Option.map_some']⟩
      · rw [if_neg h1] at h
        by_cases h2 : c = lbrace
        · rw [if_pos h2] at h
          cases hrec : tuuGo lbrace rbrace false (d + 1) b' with
          | none => rw [hrec] at h; cases h
          | some p =>
            obtain ⟨a1, r1⟩ := p
            rw [hrec] at h
            simp only [Option.map_some'] at h
            injection h with hmk
            rw [Prod.mk.injEq] at hmk
            obtain ⟨rfl, rfl⟩ := hmk
            obtain ⟨hsp, hext⟩ := ih false (d + 1) a1 r1 hrec
            exact ⟨by rw [hsp]; rfl, fun e => by
              simp only [List.cons_append, tuuGo, List.append_eq, if_neg h1, if_pos h2,
                hext e, Option.map_some']⟩
        · rw [if_neg h2] at h
          by_cases h3 : c = rbrace
          · rw [if_pos h3] at h
            by_cases h4 : d = 0
            · rw [if_pos h4] at h
              injection h with hmk
              rw [Prod.mk.injEq] at hmk
              obtain ⟨rfl, rfl⟩ := hmk
              exact ⟨rfl, fun e => by
                simp only [List.cons_append, tuuGo, List.append_eq, if_neg h1, if_neg h2,
                  if_pos h3, if_pos h4]⟩
            · rw [if_neg h4] at h
              cases hrec : tuuGo lbrace rbrace false (d - 1) b' with
              | none => rw [hrec] at h; cases h
              | some p =>
                obtain ⟨a1, r1⟩ := p
                rw [hrec] at h
                simp only [Option.map_some'] at h
                injection h with hmk
                rw [Prod.mk.injEq] at hmk
                obtain ⟨rfl, rfl⟩ := hmk
                obtain ⟨hsp, hext⟩ := ih false (d - 1) a1 r1 hrec
                exact ⟨by rw [hsp]; rfl, fun e => by
                  simp only [List.cons_append, tuuGo, List.append_eq, if_neg h1, if_neg h2,
                    if_pos h3, if_neg h4, hext e, Option.map_some']⟩
          · rw [if_neg h3] at h
            cases hrec : tuuGo lbrace rbrace false d b' with
            | none => rw [hrec] at h; cases h
            | some p =>
              obtain ⟨a1, r1⟩ := p
              rw [hrec] at h
              simp only [Option.map_some'] at h
              injection h with hmk
              rw [Prod.mk.injEq] at hmk
              obtain ⟨rfl, rfl⟩ := hmk
              obtain ⟨hsp, hext⟩ := ih false d a1 r1 hrec
              exact ⟨by rw [hsp]; rfl, fun e => by
                simp only [List.cons_append, tuuGo, List.append_eq, if_neg h1, if_neg h2,
                  if_neg h3, hext e, Option.map_some']⟩

theorem mono_in_curly : Mono in_curly_braces := by
  refine ⟨?_, ?_, ?_⟩
  · intro b rest v h
    cases b with
    | nil => simp only [in_curly_braces] at h; cases h
    | cons c b' =>
      simp only [in_curly_braces] at h
      by_cases hc : c = lbrace
      · rw [if_pos hc] at h
        cases htu : tuuGo lbrace rbrace false 0 b' with
        | none => simp only [htu] at h; cases h
        | some p =>
          obtain ⟨content, rem⟩ := p
          simp only [htu] at h
          cases rem with
          | nil => simp only [closeBrace] at h; cases h
          | cons c2 rest2 =>
            simp only [closeBrace] at h
            by_cases h2 : c2 = rbrace
            · rw [if_pos h2] at h
              injection h with hA hB
              subst hA
              subst hB
              obtain ⟨hsp, hext⟩ := tuuGo_some b' false 0 _ _ htu
              refine ⟨⟨c :: (content ++ [c2]), by rw [hsp]; simp⟩, ?_⟩
              intro e
              have h5 := hext e
              simp only [List.cons_append] at h5 ⊢
              rw [in_curly_braces]
              simp only [if_pos hc, h5, closeBrace, if_pos h2]
            · rw [if_neg h2] at h; cases h
      · rw [if_neg hc] at h; cases h
  · intro b h
    cases b with
    | nil => simp only [in_curly_braces] at h; cases h
    | cons c b' =>
      simp only [in_curly_braces] at h
      by_cases hc : c = lbrace
      · rw [if_pos hc] at h
        cases htu : tuuGo lbrace rbrace false 0 b' with
        | none => simp only [htu] at h; cases h
        | some p =>
          obtain ⟨content, rem⟩ := p
          simp only [htu] at h
          cases rem with
          | nil => simp only [closeBrace] at h; cases h
          | cons c2 rest2 =>
            simp only [closeBrace] at h
            by_cases h2 : c2 = rbrace
            · rw [if_pos h2] at h; cases h
            · obtain ⟨hsp, hext⟩ := tuuGo_some b' false 0 _ _ htu
              intro e
              have h5 := hext e
              simp only [List.cons_append] at h5 ⊢
              rw [in_curly_braces]
              simp only [if_pos hc, h5, closeBrace, if_neg h2]
      · intro e
        simp only [List.cons_append]
        rw [in_curly_braces]
        simp only [if_neg hc]
  · intro b h
    cases b with
    | nil => simp only [in_curly_braces] at h; cases h
    | cons c b' =>
      simp only [in_curly_braces] at h
      by_cases hc : c = lbrace
      · rw [if_pos hc] at h
        cases htu : tuuGo lbrace rbrace false 0 b' with
        | none => simp only [htu] at h; cases h
        | some p =>
          obtain ⟨content, rem⟩ := p
          simp only [htu] at h
          cases rem with
          | nil => simp only [closeBrace] at h; cases h
          | cons c2 rest2 =>
            simp only [closeBrace] at h
            by_cases h2 : c2 = rbrace
            · rw [if_pos h2] at h; cases h
            · rw [if_neg h2] at h; cases h
      · rw [if_neg hc] at h; cases h

/-! ## Monotonicity of the field decoders and the record grammar -/

theorem mono_stringField : Mono stringField := mono_pmap _ mono_textP

theorem mono_boolField : Mono boolField :=
  mono_alt2 (mono_pmap _ (mono_tagP _)) (mono_pmap _ (mono_tagP _))

theorem mono_dateField : Mono dateField :=
  mono_pbind mono_unquoted (fun _ => mono_ofOut _)

theorem mono_currencyField : Mono currencyField :=
  mono_pbind mono_unquoted (fun _ => mono_ofOut _)

theorem mono_decimalField : Mono decimalField :=
  mono_pbind mono_unquoted (fun _ => mono_ofOut _)

theorem mono_numRecognize : Mono numRecognize :=
  mono_precognize
    (mono_pbind (mono_popt (mono_tagP _)) (fun _ => mono_pcut (mono_takeWhile1P _)))

theorem mono_u32Field : Mono u32Field := mono_pmapRes _ mono_numRecognize

theorem mono_i32Field : Mono i32Field := mono_pmapRes _ mono_numRecognize

theorem mono_formatField : Mono formatField := mono_pmap _ (mono_tagP _)

theorem mono_typeNoField : Mono typeNoField := mono_pmap _ (mono_tagP _)

theorem mono_kptypField : Mono kptypField :=
  mono_alt2 (mono_pmap _ (mono_tagP _))
    (mono_alt2 (mono_pmap _ (mono_tagP _))
      (mono_alt2 (mono_pmap _ (mono_tagP _)) (mono_pmap _ (mono_tagP _))))

theorem mono_listOf (pf : Parser α) : Mono (listOf pf) :=
  mono_pbind mono_in_curly (fun _ => mono_ofOut _)

theorem mono_subItemsOf (label : List Char) (pi : Parser τ) :
    Mono (subItemsOf label pi) :=
  mono_pbind (mono_takeWhileP _)
    (fun _ => mono_pbind mono_in_curly (fun _ => mono_ofOut _))

theorem mono_fstep {pf : Parser α} {k : α → Parser β} (hpf : Mono pf)
    (hk : ∀ v, Mono (k v)) : Mono (fstep pf k) :=
  mono_pbind (mono_takeWhileP _) (fun _ => mono_pbind hpf hk)

theorem mono_adressItem : Mono adressItem :=
  mono_fstep mono_stringField (fun _ =>
    mono_fstep mono_stringField (fun _ =>
      mono_fstep mono_stringField (fun _ =>
        mono_fstep mono_stringField (fun _ => mono_ppure _))))

theorem mono_bkodItem : Mono bkodItem :=
  mono_fstep mono_stringField (fun _ => mono_ppure _)

theorem mono_flaggaItem : Mono flaggaItem :=
  mono_fstep mono_boolField (fun _ => mono_ppure _)

theorem mono_fnamnItem : Mono fnamnItem :=
  mono_fstep mono_stringField (fun _ => mono_ppure _)

theorem mono_formatItem : Mono formatItem :=
  mono_fstep mono_formatField (fun _ => mono_ppure _)

theorem mono_genItem : Mono genItem :=
  mono_fstep mono_dateField (fun _ =>
    mono_fstep (mono_popt mono_stringField) (fun _ => mono_ppure _))

theorem mono_ibItem : Mono ibItem :=
  mono_fstep mono_i32Field (fun _ =>
    mono_fstep mono_u32Field (fun _ =>
      mono_fstep mono_decimalField (fun _ =>
        mono_fstep (mono_popt mono_stringField) (fun _ => mono_ppure _))))

theorem mono_kontoItem : Mono kontoItem :=
  mono_fstep mono_u32Field (fun _ =>
    mono_fstep mono_stringField (fun _ => mono_ppure _))

theorem mono_kptypItem : Mono kptypItem :=
  mono_fstep mono_kptypField (fun _ => mono_ppure _)

theorem mono_orgnrItem : Mono orgnrItem :=
  mono_fstep mono_stringField (fun _ => mono_ppure _)

theorem mono_programItem : Mono programItem :=
  mono_fstep mono_stringField (fun _ =>
    mono_fstep mono_stringField (fun _ => mono_ppure _))

theorem mono_rarItem : Mono rarItem :=
  mono_fstep mono_i32Field (fun _ =>
    mono_fstep mono_dateField (fun _ =>
      mono_fstep mono_dateField (fun _ => mono_ppure _)))

theorem mono_resItem : Mono resItem :=
  mono_fstep mono_i32Field (fun _ =>
    mono_fstep mono_u32Field (fun _ =>
      mono_fstep mono_decimalField (fun _ =>
        mono_fstep (mono_popt mono_stringField) (fun _ => mono_ppure _))))

theorem mono_sieTypItem : Mono sieTypItem :=
  mono_fstep mono_typeNoField (fun _ => mono_ppure _)

theorem mono_transItem : Mono transItem :=
  mono_fstep mono_u32Field (fun _ =>
    mono_fstep (mono_listOf stringField) (fun _ =>
      mono_fstep mono_decimalField (fun _ =>
        mono_fstep (mono_popt mono_dateField) (fun _ =>
          mono_fstep (mono_popt mono_stringField) (fun _ =>
            mono_fstep (mono_popt mono_stringField) (fun _ =>
              mono_fstep (mono_popt mono_stringField) (fun _ => mono_ppure _)))))))

theorem mono_ubItem : Mono ubItem :=
  mono_fstep mono_i32Field (fun _ =>
    mono_fstep mono_u32Field (fun _ =>
      mono_fstep mono_decimalField (fun _ =>
        mono_fstep (mono_popt mono_stringField) (fun _ => mono_ppure _))))

theorem mono_valutaItem : Mono valutaItem :=
  mono_fstep mono_currencyField (fun _ => mono_ppure _)

theorem mono_verItem : Mono verItem :=
  mono_fstep mono_stringField (fun _ =>
    mono_fstep mono_u32Field (fun _ =>
      mono_fstep mono_dateField (fun _ =>
        mono_fstep (mono_popt mono_stringField) (fun _ =>
          mono_fstep (mono_popt mono_dateField) (fun _ =>
            mono_fstep (mono_popt mono_stringField) (fun _ =>
              mono_fstep (mono_subItemsOf "TRANS".toList transItem) (fun _ =>
                mono_ppure _)))))))

theorem mono_branch {pi : Parser τ} (label : List Char) (mk : τ → Item)
    (hpi : Mono pi) : Mono (branch label pi mk) :=
  mono_pbind (mono_tagP _) (fun _ => mono_pmap _ hpi)

theorem mono_itemBody : Mono itemBody :=
  mono_alt2 (mono_branch _ _ mono_adressItem)
    (mono_alt2 (mono_branch _ _ mono_bkodItem)
      (mono_alt2 (mono_branch _ _ mono_flaggaItem)
        (mono_alt2 (mono_branch _ _ mono_fnamnItem)
          (mono_alt2 (mono_branch _ _ mono_formatItem)
            (mono_alt2 (mono_branch _ _ mono_genItem)
              (mono_alt2 (mono_branch _ _ mono_ibItem)
                (mono_alt2 (mono_branch _ _ mono_kontoItem)
                  (mono_alt2 (mono_branch _ _ mono_kptypItem)
                    (mono_alt2 (mono_branch _ _ mono_orgnrItem)
                      (mono_alt2 (mono_branch _ _ mono_programItem)
                        (mono_alt2 (mono_branch _ _ mono_rarItem)
                          (mono_alt2 (mono_branch _ _ mono_resItem)
                            (mono_alt2 (mono_branch _ _ mono_sieTypItem)
                              (mono_alt2 (mono_branch _ _ mono_transItem)
                                (mono_alt2 (mono_branch _ _ mono_ubItem)
                                  (mono_alt2 (mono_branch _ _ mono_valutaItem)
                                    (mono_branch _ _ mono_verItem)))))))))))))))))

/-- `Item::parse` is monotone: growing the buffered input cannot change a
definite (success or hard-error) parse result. -/
theorem mono_itemParse : Mono Item.parse :=
  mono_pbind (mono_takeWhileP _)
    (fun _ => mono_pbind (mono_tagP _) (fun _ => mono_itemBody))


/-! ## The refill loop: buffered-plus-pending equals fed-whole -/

/-- One pull behaves identically whether the stream's remaining bytes sit in
pending chunks or are already buffered: either both runs end, or both yield
the same output, with related follow-up states (the chunked side keeps a
suffix of its chunk list).  This is the heart of the refill-equivalence
argument and rests on `mono_itemParse`. -/
theorem nextGo_drain (g : Group) : ∀ (cs : List Input) (b : Input),
    (∀ c ∈ cs, c ≠ []) →
    (nextGo g b cs = none ∧ nextGo g (b ++ cs.flatten) [] = none) ∨
    (∃ o rest g2 cs2, List.IsSuffix cs2 cs ∧
      nextGo g b cs = some (o, ⟨rest, cs2, g2⟩) ∧
      nextGo g (b ++ cs.flatten) [] = some (o, ⟨rest ++ cs2.flatten, [], g2⟩)) := by
  intro cs
  induction cs with
  | nil =>
    intro b hne
    simp only [List.flatten_nil, List.append_nil]
    cases hp : Item.parse b with
    | ok rest it =>
      right
      by_cases hlt : it.group < g
      · exact ⟨.err .outOfOrder, rest, g, [], List.suffix_refl _, by
          simp only [nextGo, hp, if_pos hlt], by
          simp only [nextGo, hp, if_pos hlt, List.flatten_nil, List.append_nil]⟩
      · exact ⟨.ok it, rest, it.group, [], List.suffix_refl _, by
          simp only [nextGo, hp, if_neg hlt], by
          simp only [nextGo, hp, if_neg hlt, List.flatten_nil, List.append_nil]⟩
    | incomplete =>
      left
      constructor <;> simp only [nextGo, hp]
    | err =>
      right
      exact ⟨.err .parse, b, g, [], List.suffix_refl _, by
        simp only [nextGo, hp], by
        simp only [nextGo, hp, List.flatten_nil, List.append_nil]⟩
    | fail =>
      right
      exact ⟨.err .parse, b, g, [], List.suffix_refl _, by
        simp only [nextGo, hp], by
        simp only [nextGo, hp, List.flatten_nil, List.append_nil]⟩
  | cons c cs' ih =>
    intro b hne
    cases hp : Item.parse b with
    | ok rest it =>
      right
      have hext := (mono_itemParse.okE _ _ _ hp).2 (c :: cs').flatten
      by_cases hlt : it.group < g
      · exact ⟨.err .outOfOrder, rest, g, c :: cs', List.suffix_refl _, by
          simp only [nextGo, hp, if_pos hlt], by
          simp only [nextGo, hext, if_pos hlt]⟩
      · exact ⟨.ok it, rest, it.group, c :: cs', List.suffix_refl _, by
          simp only [nextGo, hp, if_neg hlt], by
          simp only [nextGo, hext, if_neg hlt]⟩
    | incomplete =>
      have hcne : c ≠ [] := hne c (by simp)
      have hstep : nextGo g b (c :: cs') = nextGo g (b ++ c) cs' := by
        simp only [nextGo, hp]
        rw [if_neg (by simpa [List.isEmpty_iff] using hcne)]
      have hflat : b ++ (c :: cs').flatten = (b ++ c) ++ cs'.flatten := by
        rw [List.flatten_cons, List.append_assoc]
      have hne' : ∀ x ∈ cs', x ≠ [] := fun x hx => hne x (by simp [hx])
      rcases ih (b ++ c) hne' with ⟨h1, h2⟩ | ⟨o, rest, g2, cs2, hsuf, h1, h2⟩
      · left
        rw [hstep, hflat]
        exact ⟨h1, h2⟩
      · right
        exact ⟨o, rest, g2, cs2, hsuf.trans (List.suffix_cons c cs'), by
          rw [hstep]; exact h1, by rw [hflat]; exact h2⟩
    | err =>
      right
      have hext := mono_itemParse.errE _ hp (c :: cs').flatten
      exact ⟨.err .parse, b, g, c :: cs', List.suffix_refl _, by
        simp only [nextGo, hp], by simp only [nextGo, hext]⟩
    | fail =>
      right
      have hext := mono_itemParse.failE _ hp (c :: cs').flatten
      exact ⟨.err .parse, b, g, c :: cs', List.suffix_refl _, by
        simp only [nextGo, hp], by simp only [nextGo, hext]⟩

/-- Every finite pull sequence is identical whether the remaining stream
bytes arrive through pending chunks or are buffered up front. -/
theorem pulls_drain : ∀ (n : Nat) (g : Group) (b : Input) (cs : List Input),
    (∀ c ∈ cs, c ≠ []) →
    pulls n ⟨b, cs, g⟩ = pulls n ⟨b ++ cs.flatten, [], g⟩ := by
  intro n
  induction n with
  | zero => intro g b cs hne; rfl
  | succ n ih =>
    intro g b cs hne
    rcases nextGo_drain g cs b hne with ⟨h1, h2⟩ | ⟨o, rest, g2, cs2, hsuf, h1, h2⟩
    · simp only [pulls, readerNext, h1, h2]
    · simp only [pulls, readerNext, h1, h2]
      have hne2 : ∀ c ∈ cs2, c ≠ [] := fun c hc => hne c (hsuf.subset hc)
      rw [ih g2 rest cs2 hne2]


/-! ## Group-ordering behaviour of the reader -/

theorem group_not_lt_flag (g : Group) : ¬ g < Group.Flag := by
  cases g <;> decide

theorem group_flag_le (g : Group) : Group.Flag ≤ g := by
  cases g <;> decide

theorem parse_nil_incomplete : Item.parse ([] : Input) = .incomplete := by decide

/-- A pull that yields an output either succeeded (watermark moved up to the
item's group, which is at least the old watermark) or failed (watermark
untouched). -/
theorem nextGo_group : ∀ (cs : List Input) (g : Group) (b : Input) (o : ROut)
    (s2 : RState), nextGo g b cs = some (o, s2) →
    (∃ it, o = .ok it ∧ s2.group = it.group ∧ g ≤ it.group) ∨
    (∃ e, o = .err e ∧ s2.group = g) := by
  intro cs
  induction cs with
  | nil =>
    intro g b o s2 h
    cases hp : Item.parse b with
    | ok rest it =>
      rw [nextGo] at h
      simp only [hp] at h
      by_cases hlt : it.group < g
      · rw [if_pos hlt] at h
        injection h with h1
        rw [Prod.mk.injEq] at h1
        obtain ⟨rfl, rfl⟩ := h1
        exact Or.inr ⟨.outOfOrder, rfl, rfl⟩
      · rw [if_neg hlt] at h
        injection h with h1
        rw [Prod.mk.injEq] at h1
        obtain ⟨rfl, rfl⟩ := h1
        exact Or.inl ⟨it, rfl, rfl, Nat.le_of_not_lt hlt⟩
    | incomplete => rw [nextGo] at h; simp only [hp] at h; cases h
    | err =>
      rw [nextGo] at h
      simp only [hp] at h
      injection h with h1
      rw [Prod.mk.injEq] at h1
      obtain ⟨rfl, rfl⟩ := h1
      exact Or.inr ⟨.parse, rfl, rfl⟩
    | fail =>
      rw [nextGo] at h
      simp only [hp] at h
      injection h with h1
      rw [Prod.mk.injEq] at h1
      obtain ⟨rfl, rfl⟩ := h1
      exact Or.inr ⟨.parse, rfl, rfl⟩
  | cons c cs' ih =>
    intro g b o s2 h
    cases hp : Item.parse b with
    | ok rest it =>
      rw [nextGo] at h
      simp only [hp] at h
      by_cases hlt : it.group < g
      · rw [if_pos hlt] at h
        injection h with h1
        rw [Prod.mk.injEq] at h1
        obtain ⟨rfl, rfl⟩ := h1
        exact Or.inr ⟨.outOfOrder, rfl, rfl⟩
      · rw [if_neg hlt] at h
        injection h with h1
        rw [Prod.mk.injEq] at h1
        obtain ⟨rfl, rfl⟩ := h1
        exact Or.inl ⟨it, rfl, rfl, Nat.le_of_not_lt hlt⟩
    | incomplete =>
      rw [nextGo] at h
      simp only [hp] at h
      by_cases hce : c.isEmpty
      · rw [if_pos hce] at h; cases h
      · rw [if_neg hce] at h
        exact ih g (b ++ c) o s2 h
    | err =>
      rw [nextGo] at h
      simp only [hp] at h
      injection h with h1
      rw [Prod.mk.injEq] at h1
      obtain ⟨rfl, rfl⟩ := h1
      exact Or.inr ⟨.parse, rfl, rfl⟩
    | fail =>
      rw [nextGo] at h
      simp only [hp] at h
      injection h with h1
      rw [Prod.mk.injEq] at h1
      obtain ⟨rfl, rfl⟩ := h1
      exact Or.inr ⟨.parse, rfl, rfl⟩

/-- The groups of the successfully emitted items form a chain that never
decreases and starts no lower than the current watermark. -/
theorem pulls_chain : ∀ (n : Nat) (s : RState),
    List.Chain (· ≤ ·) s.group (successGroups (pulls n s)) := by
  intro n
  induction n with
  | zero => intro s; exact List.Chain.nil
  | succ n ih =>
    intro s
    cases hn : readerNext s with
    | none => simp only [pulls, hn]; exact List.Chain.nil
    | some p =>
      obtain ⟨o, s2⟩ := p
      rcases nextGo_group s.chunks s.group s.buffer o s2 hn with
        ⟨it, rfl, hg, hle⟩ | ⟨e, rfl, hg⟩
      · have h2 := ih s2
        rw [hg] at h2
        simp only [pulls, hn, successGroups, List.filterMap_cons]
        exact List.Chain.cons hle h2
      · have h2 := ih s2
        rw [hg] at h2
        simp only [pulls, hn, successGroups, List.filterMap_cons]
        exact h2

/-! ## Direct characterizations of one reader step -/

theorem readerNext_of_ok {s : RState} {rest : Input} {it : Item}
    (hp : Item.parse s.buffer = .ok rest it) (hge : ¬ it.group < s.group) :
    readerNext s = some (.ok it, ⟨rest, s.chunks, it.group⟩) := by
  obtain ⟨b, cs, g⟩ := s
  simp only [readerNext] at *
  cases cs <;> simp only [nextGo, hp, if_neg hge]

theorem readerNext_of_outOfOrder {s : RState} {rest : Input} {it : Item}
    (hp : Item.parse s.buffer = .ok rest it) (hlt : it.group < s.group) :
    readerNext s = some (.err .outOfOrder, ⟨rest, s.chunks, s.group⟩) := by
  obtain ⟨b, cs, g⟩ := s
  simp only [readerNext] at *
  cases cs <;> simp only [nextGo, hp, if_pos hlt]

theorem readerNext_of_err {s : RState} (hp : Item.parse s.buffer = .err) :
    readerNext s = some (.err .parse, s) := by
  obtain ⟨b, cs, g⟩ := s
  simp only [readerNext] at *
  cases cs <;> simp only [nextGo, hp]

theorem readerNext_of_fail {s : RState} (hp : Item.parse s.buffer = .fail) :
    readerNext s = some (.err .parse, s) := by
  obtain ⟨b, cs, g⟩ := s
  simp only [readerNext] at *
  cases cs <;> simp only [nextGo, hp]

theorem pulls_of_incomplete : ∀ (n : Nat) (b : Input) (g : Group),
    Item.parse b = .incomplete → pulls n ⟨b, [], g⟩ = [] := by
  intro n b g hp
  cases n with
  | zero => rfl
  | succ n => simp only [pulls, readerNext, nextGo, hp]


/-! ## Helpers for the scanner-incompleteness and string-decoder claims -/

/-- Depth bookkeeping of the streaming delimiter scanner, without content:
`some d` when the input is exhausted with the escape-aware nesting depth at
`d` (the unbalanced closing brace never appeared), `none` when the
unbalanced closing brace is reached. -/
def remDepth : Bool → Nat → Input → Option Nat
  | _, d, [] => some d
  | true, d, _ :: rest => remDepth false d rest
  | false, d, c :: rest =>
    if c = '\\' then remDepth true d rest
    else if c = lbrace then remDepth false (d + 1) rest
    else if c = rbrace then
      (if d = 0 then none else remDepth false (d - 1) rest)
    else remDepth false d rest

/-- When the scan exhausts the buffered bytes (whatever the final depth),
the streaming scanner reports "need more bytes" (`none`), never a result. -/
theorem tuuGo_none_of_remDepth : ∀ (i : Input) (esc : Bool) (d0 d : Nat),
    remDepth esc d0 i = some d → tuuGo lbrace rbrace esc d0 i = none := by
  intro i
  induction i with
  | nil => intro esc d0 d h; cases esc <;> rfl
  | cons c rest ih =>
    intro esc d0 d h
    cases esc with
    | true =>
      simp only [remDepth] at h
      simp only [tuuGo, ih false d0 d h, Option.map_none']
    | false =>
      simp only [remDepth] at h
      by_cases h1 : c = '\\'
      · rw [if_pos h1] at h
        simp only [tuuGo, if_pos h1, ih true d0 d h, Option.map_none']
      · rw [if_neg h1] at h
        by_cases h2 : c = lbrace
        · rw [if_pos h2] at h
          simp only [tuuGo, if_neg h1, if_pos h2, ih false (d0 + 1) d h,
            Option.map_none']
        · rw [if_neg h2] at h
          by_cases h3 : c = rbrace
          · rw [if_pos h3] at h
            by_cases h4 : d0 = 0
            · rw [if_pos h4] at h; cases h
            · rw [if_neg h4] at h
              simp only [tuuGo, if_neg h1, if_neg h2, if_pos h3, if_neg h4,
                ih false (d0 - 1) d h, Option.map_none']
          · rw [if_neg h3] at h
            simp only [tuuGo, if_neg h1, if_neg h2, if_neg h3,
              ih false d0 d h, Option.map_none']

/-- A maximal run: `take_while` consumes exactly the prefix on which the
predicate holds, stopping at the first character that falsifies it. -/
theorem twGo_exact : ∀ (f : Char → Bool) (a : Input) (c : Char) (r : Input),
    (∀ x ∈ a, f x = true) → f c = false →
    twGo f (a ++ c :: r) = some (a, c :: r) := by
  intro f a
  induction a with
  | nil =>
    intro c r _ hc
    simp only [List.nil_append, twGo, hc]
    rw [if_neg (by simp [hc])]
  | cons x a' ih =>
    intro c r ha hc
    have hx : f x = true := ha x (by simp)
    simp only [List.cons_append, List.append_eq, twGo, hx, if_true,
      ih c r (fun y hy => ha y (by simp [hy])) hc, Option.map_some']

/-! ## The claims -/

/-- C1 (amended): a stream whose first record decodes and whose second
record's Group is strictly lower yields exactly one decoded record and then
one OutOfOrder error — but the error is not terminal: the reader has already
consumed the offending record, keeps the old watermark, and subsequent pulls
continue from there (and may succeed, as the counterexample shows). -/
theorem c1_out_of_order_then_continue :
    ∀ (w r1 r2 : Input) (it1 it2 : Item) (n : Nat),
      Item.parse w = .ok r1 it1 →
      Item.parse r1 = .ok r2 it2 →
      it2.group < it1.group →
      pulls (n + 2) ⟨w, [], Group.Flag⟩ =
        .ok it1 :: .err .outOfOrder :: pulls n ⟨r2, [], it1.group⟩ ∧
      pulls (n + 2) (initState [w]) =
        .ok it1 :: .err .outOfOrder :: pulls n ⟨r2, [], it1.group⟩ := by
  intro w r1 r2 it1 it2 n hp1 hp2 hlt
  have h1 := readerNext_of_ok (s := ⟨w, [], Group.Flag⟩) hp1
    (group_not_lt_flag it1.group)
  have h2 := readerNext_of_outOfOrder (s := ⟨r1, [], it1.group⟩) hp2 hlt
  have hmain : pulls (n + 2) ⟨w, [], Group.Flag⟩ =
      .ok it1 :: .err .outOfOrder :: pulls n ⟨r2, [], it1.group⟩ := by
    simp only [pulls, h1, h2]
  refine ⟨hmain, ?_⟩
  have hw : w ≠ [] := by
    intro hw
    subst hw
    rw [parse_nil_incomplete] at hp1
    cases hp1
  have hd := pulls_drain (n + 2) Group.Flag [] [w]
    (by intro c hc; rw [List.mem_singleton] at hc; subst hc; exact hw)
  rw [show initState [w] = ⟨[], [w], Group.Flag⟩ from rfl, hd]
  simpa using hmain

/-- C1 (counterexample to the claim as stated): after the OutOfOrder error
the pull sequence does not end — a third, in-order record is silently
decoded successfully on the next pull. -/
theorem c1_counterexample :
    pulls 3 ⟨("#SIETYP 4\n#FLAGGA 0\n#SIETYP 4\n").toList, [], Group.Flag⟩ =
      [.ok (.SieTyp ⟨.SIE4⟩), .err .outOfOrder, .ok (.SieTyp ⟨.SIE4⟩)] := by
  decide

theorem c1_out_of_order_then_continue_witness :
    pulls 2 ⟨("#SIETYP 4\n#FLAGGA 0\n").toList, [], Group.Flag⟩ =
      [.ok (.SieTyp ⟨.SIE4⟩), .err .outOfOrder] :=
  (c1_out_of_order_then_continue ("#SIETYP 4\n#FLAGGA 0\n").toList
    ("\n#FLAGGA 0\n").toList ("\n").toList (.SieTyp ⟨.SIE4⟩) (.Flagga ⟨false⟩) 0
    (by decide) (by decide) (by decide)).1

/-- C2: from any reader state, the Groups of the successfully emitted items
of any pull sequence form a non-decreasing chain bounded below by the
current watermark; the watermark starts at `Group::Flag`, the minimum, so
the first record of any kind is accepted; and a structurally valid record
whose Group is strictly below the watermark is reported as OutOfOrder (with
its bytes consumed), never emitted as a success. -/
theorem c2_groups_monotone :
    (∀ (n : Nat) (s : RState),
      List.Chain (· ≤ ·) s.group (successGroups (pulls n s))) ∧
    (∀ g : Group, Group.Flag ≤ g) ∧
    (∀ chunks : List Input, (initState chunks).group = Group.Flag) ∧
    (∀ (s : RState) (rest : Input) (it : Item),
      Item.parse s.buffer = .ok rest it → it.group < s.group →
      readerNext s = some (.err .outOfOrder, ⟨rest, s.chunks, s.group⟩)) :=
  ⟨pulls_chain, group_flag_le, fun _ => rfl,
    fun _ _ _ hp hlt => readerNext_of_outOfOrder hp hlt⟩

theorem c2_groups_monotone_witness :
    readerNext ⟨("#FLAGGA 0\n").toList, [], Group.Identification⟩ =
      some (.err .outOfOrder, ⟨("\n").toList, [], Group.Identification⟩) :=
  c2_groups_monotone.2.2.2 ⟨("#FLAGGA 0\n").toList, [], Group.Identification⟩
    ("\n").toList (.Flagga ⟨false⟩) (by decide) (by decide)

/-- C3: feeding the byte stream to the reader in any partition into
(non-empty) chunks produces the identical pull sequence as feeding it whole:
incremental refill never changes parse results. -/
theorem c3_chunking_equivalence :
    ∀ (n : Nat) (cs : List Input), (∀ c ∈ cs, c ≠ []) →
      pulls n (initState cs) = pulls n (initState [cs.flatten]) := by
  intro n cs hne
  by_cases hflat : cs.flatten = []
  · have hcs : cs = [] := by
      cases cs with
      | nil => rfl
      | cons c cs' =>
        exfalso
        rw [List.flatten_cons] at hflat
        exact hne c (by simp) (List.append_eq_nil.mp hflat).1
    subst hcs
    have e1 : pulls n (initState []) = [] :=
      pulls_of_incomplete n [] Group.Flag parse_nil_incomplete
    have e2 : pulls n (initState [([] : List Input).flatten]) = [] := by
      cases n with
      | zero => rfl
      | succ m =>
        simp only [pulls, readerNext, initState, List.flatten_nil, nextGo,
          parse_nil_incomplete, List.isEmpty_nil, if_true]
    rw [e1, e2]
  · have h1 := pulls_drain n Group.Flag [] cs hne
    have h2 := pulls_drain n Group.Flag [] [cs.flatten]
      (by intro c hc; rw [List.mem_singleton] at hc; subst hc; exact hflat)
    show pulls n ⟨[], cs, Group.Flag⟩ = pulls n ⟨[], [cs.flatten], Group.Flag⟩
    rw [h1, h2]
    simp only [List.nil_append, List.flatten_cons, List.flatten_nil,
      List.append_nil]

theorem c3_chunking_equivalence_witness :
    ((∀ c ∈ [("#FLAGG").toList, ("A 0\n#KONTO 1").toList, ("220 \"Inv\"\n").toList],
        c ≠ []) ∧
      pulls 4 (initState
          [("#FLAGG").toList, ("A 0\n#KONTO 1").toList, ("220 \"Inv\"\n").toList]) =
        pulls 4 (initState
          [[("#FLAGG").toList, ("A 0\n#KONTO 1").toList,
            ("220 \"Inv\"\n").toList].flatten])) ∧
    pulls 4 (initState [("#FLAGGA 0\n#KONTO 1220 \"Inv\"\n").toList]) =
      [.ok (.Flagga ⟨false⟩), .ok (.Konto ⟨1220, "Inv"⟩)] :=
  ⟨⟨by decide, c3_chunking_equivalence 4 _ (by decide)⟩, by decide⟩

/-- C4: `Optional<T>` yields a `None` with the input unconsumed exactly when
`T`'s decoder reports a recoverable (shape-mismatch) error, and propagates a
hard failure exactly when `T`'s decoder does; for the date decoder an
8-digit token that is not a real calendar date is a hard failure, while a
quoted string in date position is a recoverable error, hence absence. -/
theorem c4_optional_policy :
    (∀ (α : Type) (p : Parser α) (i : Input),
      (popt p i = .ok i none ↔ p i = .err) ∧
      (popt p i = .fail ↔ p i = .fail)) ∧
    popt dateField ("20201301 \"next\"").toList = .fail ∧
    (∀ s : Input, popt dateField ('"' :: s) = .ok ('"' :: s) none) := by
  refine ⟨?_, by decide, ?_⟩
  · intro α p i
    cases hp : p i with
    | ok rest v =>
      refine ⟨⟨fun h => ?_, fun h => ?_⟩, ⟨fun h => ?_, fun h => ?_⟩⟩
      · simp only [popt, hp] at h
        injection h with h1 h2
        cases h2
      · cases h
      · simp only [popt, hp] at h
        cases h
      · cases h
    | incomplete =>
      refine ⟨⟨fun h => ?_, fun h => ?_⟩, ⟨fun h => ?_, fun h => ?_⟩⟩
      · simp only [popt, hp] at h
        cases h
      · cases h
      · simp only [popt, hp] at h
        cases h
      · cases h
    | err =>
      refine ⟨⟨fun h => rfl, fun h => ?_⟩, ⟨fun h => ?_, fun h => ?_⟩⟩
      · simp only [popt, hp]
      · simp only [popt, hp] at h
        cases h
      · cases h
    | fail =>
      refine ⟨⟨fun h => ?_, fun h => ?_⟩, ⟨fun h => rfl, fun h => ?_⟩⟩
      · simp only [popt, hp] at h
        cases h
      · cases h
      · simp only [popt, hp]
  · intro s
    have hu : unquoted_text ('"' :: s) = .err := by
      simp only [unquoted_text, takeWhile1P]
      rw [if_neg (by decide)]
    have hd : dateField ('"' :: s) = .err := by
      simp only [dateField, pbind, hu]
    simp only [popt, hd]

/-- C5: the historical delimiter scanner of src/parsers.rs on the doctest
input returns the content up to (not including) the unbalanced closing
byte, the wrapping `delimited` parser leaves exactly `rest` after consuming
the closer, and — on every input — an escape byte plus the byte following
it is skipped without touching the nesting depth, so an escaped closing
byte never closes the region. -/
theorem c5_delimiter_scanner :
    take_until_unbalanced '<' '>' ("<inside>inside>rest").toList =
      .ok (">rest").toList ("<inside>inside").toList ∧
    (pbind (tagP ("<").toList) (fun _ =>
        pbind (take_until_unbalanced '<' '>') (fun v =>
          pmap (fun _ => v) (tagP (">").toList)))) ("<<inside>inside>rest").toList =
      .ok ("rest").toList ("<inside>inside").toList ∧
    (∀ (ob cb c : Char) (rest : Input) (d : Nat),
      oldScanGo ob cb false d ('\\' :: c :: rest) =
        (oldScanGo ob cb false d rest).map
          (fun p => ('\\' :: c :: p.1, p.2)) id) := by
  refine ⟨by decide, by decide, ?_⟩
  intro ob cb c rest d
  simp only [oldScanGo, if_pos rfl]
  cases oldScanGo ob cb false d rest <;> rfl

/-- C6: whenever the streaming delimiter scanner runs out of buffered bytes
while its nesting depth is still non-zero (the unbalanced closing brace has
not appeared), it reports the "need more bytes" incompleteness signal —
both at the scanner level (`tuuGo` yields no result) and through
`in_curly_braces` — rather than any decode failure. -/
theorem c6_scanner_incomplete :
    ∀ (i : Input) (d : Nat),
      remDepth false 0 i = some d → d ≠ 0 →
      tuuGo lbrace rbrace false 0 i = none ∧
      in_curly_braces (lbrace :: i) = .incomplete := by
  intro i d h hd
  have hnone := tuuGo_none_of_remDepth i false 0 d h
  refine ⟨hnone, ?_⟩
  simp [in_curly_braces, hnone]

theorem c6_scanner_incomplete_witness :
    remDepth false 0 ("\x7bab").toList = some 1 ∧
    tuuGo lbrace rbrace false 0 ("\x7bab").toList = none ∧
    in_curly_braces (lbrace :: ("\x7bab").toList) = .incomplete :=
  ⟨by decide,
    (c6_scanner_incomplete ("\x7bab").toList 1 (by decide) (by decide)).1,
    (c6_scanner_incomplete ("\x7bab").toList 1 (by decide) (by decide)).2⟩

/-- C7: a stream truncated mid-record — the parse of the buffered bytes is
still incomplete when the byte source is exhausted — ends the pull sequence
cleanly: no partial record and no error are emitted for the truncated
trailing record.  Witnessed on an unterminated quoted string, an unbalanced
brace region, and a stream whose sound prefix is still delivered. -/
theorem c7_truncated_stream_clean_end :
    (∀ (n : Nat) (b : Input) (g : Group),
      Item.parse b = .incomplete → pulls n ⟨b, [], g⟩ = []) ∧
    Item.parse ("#FNAMN \"Acme").toList = .incomplete ∧
    Item.parse ("#VER A 42 20230314\n\x7b\n#TRANS 1930 \x7b\x7d -72.00").toList =
      .incomplete ∧
    pulls 5 ⟨[], [("#FLAGGA 0\n#KONTO 1220 \"Inv").toList], Group.Flag⟩ =
      [.ok (.Flagga ⟨false⟩)] :=
  ⟨pulls_of_incomplete, by decide, by decide, by decide⟩

theorem c7_truncated_stream_clean_end_witness :
    pulls 4 ⟨("#FNAMN \"Acme").toList, [], Group.Flag⟩ = [] :=
  c7_truncated_stream_clean_end.1 4 ("#FNAMN \"Acme").toList Group.Flag
    (by decide)

/-- C8: the `String` field decoder accepts exactly a double-quoted span —
in which a backslash-escaped quote is a literal quote and does not
terminate — or, unquoted, a bare run of bytes up to (and not including) the
next space, tab, line break, `#`, `{` or `}`. -/
theorem c8_string_decoder :
    (∀ (a r : Input) (c0 : Char),
      (∀ x ∈ a, isBareChar x = true) → a.head? ≠ some '"' →
      (c0 = ' ' ∨ c0 = '\t' ∨ c0 = '\n' ∨ c0 = '\r' ∨ c0 = '#' ∨ c0 = lbrace ∨
        c0 = rbrace) →
      textP (a ++ c0 :: r) = (if a = [] then .err else .ok (c0 :: r) a)) ∧
    (∀ (s rest : Input) (v : List Char),
      textP ('"' :: s) = .ok rest v →
      textP ('"' :: '\\' :: '"' :: s) = .ok rest ('"' :: v)) ∧
    textP ("\"a\\\"b\" tail").toList = .ok (" tail").toList ("a\"b").toList := by
  refine ⟨?_, ?_, by decide⟩
  · intro a r c0 ha hq hstop
    have hc0 : isBareChar c0 = false := by
      rcases hstop with rfl | rfl | rfl | rfl | rfl | rfl | rfl <;> decide
    cases a with
    | nil =>
      rw [if_pos rfl]
      simp only [List.nil_append, textP]
      have hq0 : ¬ c0 = '"' := by
        intro hc
        subst hc
        cases hc0
      rw [if_neg hq0]
      simp only [takeWhile1P, hc0]
      rw [if_neg (by simp [hc0])]
    | cons x a' =>
      rw [if_neg (by simp)]
      have hx : isBareChar x = true := ha x (by simp)
      have hxq : ¬ x = '"' := by
        intro hc
        simp only [List.head?_cons, hc] at hq
        exact hq rfl
      simp only [List.cons_append, textP]
      rw [if_neg hxq]
      simp [takeWhile1P, hx,
        twGo_exact isBareChar a' c0 r (fun y hy => ha y (by simp [hy])) hc0]
  · intro s rest v h
    have h' : quotedGo false s = .ok rest v := h
    have hq : quotedGo true ('"' :: s) = .ok rest ('"' :: v) := by
      simp [quotedGo, h']
    show quotedGo false ('\\' :: '"' :: s) = .ok rest ('"' :: v)
    simp [quotedGo, h']

theorem c8_string_decoder_witness :
    textP (("abc").toList ++ ' ' :: ("x").toList) =
      .ok (' ' :: ("x").toList) ("abc").toList ∧
    textP ('"' :: '\\' :: '"' :: ("q\" t").toList) =
      .ok (" t").toList ('"' :: ("q").toList) :=
  ⟨by
    have h := c8_string_decoder.1 ("abc").toList ("x").toList ' '
      (by decide) (by decide) (Or.inl rfl)
    simpa using h,
    c8_string_decoder.2.1 ("q\" t").toList (" t").toList ("q").toList
      (by decide)⟩

/-- C9: decoding `#KONTO 1220 "Inventarier och verktyg"\n` yields exactly
one Account record with number 1220 and that name, leaving the remainder at
the byte after the closing quote — in particular, with a following record
appended, none of its bytes are consumed. -/
theorem c9_konto_decode :
    Item.parse ("#KONTO 1220 \"Inventarier och verktyg\"\n").toList =
      .ok ("\n").toList (.Konto ⟨1220, "Inventarier och verktyg"⟩) ∧
    Item.parse ("#KONTO 1220 \"Inventarier och verktyg\"\n#FLAGGA 0\n").toList =
      .ok ("\n#FLAGGA 0\n").toList (.Konto ⟨1220, "Inventarier och verktyg"⟩) := by
  constructor <;> decide

/-- C10: on a hard parse failure the reader consumes nothing and leaves the
whole state (buffer, pending chunks, watermark) unchanged; on an OutOfOrder
failure the offending record's bytes have already been consumed while the
watermark still remains at the previous Group. -/
theorem c10_frame_effects :
    (∀ s : RState, Item.parse s.buffer = .err →
      readerNext s = some (.err .parse, s)) ∧
    (∀ s : RState, Item.parse s.buffer = .fail →
      readerNext s = some (.err .parse, s)) ∧
    (∀ (s : RState) (rest : Input) (it : Item),
      Item.parse s.buffer = .ok rest it → it.group < s.group →
      readerNext s = some (.err .outOfOrder, { s with buffer := rest })) :=
  ⟨fun _ hp => readerNext_of_err hp, fun _ hp => readerNext_of_fail hp,
    fun _ _ _ hp hlt => readerNext_of_outOfOrder hp hlt⟩

theorem c10_frame_effects_witness :
    readerNext ⟨("xyz").toList, [("a").toList], Group.Flag⟩ =
      some (.err .parse, ⟨("xyz").toList, [("a").toList], Group.Flag⟩) ∧
    readerNext ⟨("#FLAGGA 1\n").toList, [("a").toList], Group.Balance⟩ =
      some (.err .outOfOrder, ⟨("\n").toList, [("a").toList], Group.Balance⟩) :=
  ⟨c10_frame_effects.1 ⟨("xyz").toList, [("a").toList], Group.Flag⟩ (by decide),
    c10_frame_effects.2.2 ⟨("#FLAGGA 1\n").toList, [("a").toList], Group.Balance⟩
      ("\n").toList (.Flagga ⟨true⟩) (by decide) (by decide)⟩


end Sie4
